import Mathlib

/-!
Verification of the Aho-Corasick matcher repository (three Go source
versions).  We give a shallow embedding of:

* `V1` — `ahocorasick.go`: the fixed-array pointer version
  (`child [256]*node`, `fails [256]*node`, counter-based duplicate
  suppression);
* `V2` — the chunked-arena pointer version (lazily allocated `child` /
  `fails` slices, node storage grown in `NODES_WIDTH` chunks);
* `V4` — the final int32-table version whose `Match` uses a per-call
  `marks` map and no `fails` table.

Go pointers to `node` are represented as indices into the arena that the
source itself builds (the `nodes` slice of `buildTrie`, respectively the
`table` of the int32 versions); a pointer being the root corresponds to
index 0 (only the node created as `m.root` has the `root` flag set, and
the pointer/index correspondence is a bijection onto created nodes).
Bytes are `Nat` (values 0..255 in any real input; nothing below needs the
bound).  The Go `int` match counter wraps modulo `2 ^ 64`; equality tests
on it are equality of the residues.
-/

namespace Aho

/-- Width of the Go `int` type on a 64-bit platform: the match counter of
`Matcher` is incremented once per `Match` call and wraps modulo `2 ^ 64`. -/
def W : Nat := 2 ^ 64

/-- A node of the trie (type `node` of ahocorasick.go).  Pointer fields
hold arena indices; 0 is the root.  Go zero values at allocation
(`c = &node{}`): `output = false`, `index = 0`, `counter = 0`, all
`child` entries nil, `fail` nil and `suffix` nil.  A nil `fail`/`suffix`
is modelled as 0: the root's own `fail`/`suffix` (nil in Go) are never
dereferenced, every other node gets both fields assigned during
construction before any read, and the provisional `c.fail = m.root`
written for depth-1 nodes is the same value 0. -/
structure Node where
  b : List Nat
  output : Bool
  index : Nat
  counter : Nat
  child : Nat → Option Nat
  fail : Nat
  suffix : Nat
  fails : Nat → Nat

/-- The all-defaults node, i.e. the Go zero value `&node{}`. -/
def Node.empty : Node :=
  { b := [], output := false, index := 0, counter := 0,
    child := fun _ => none, fail := 0, suffix := 0, fails := fun _ => 0 }

instance : Inhabited Node := ⟨Node.empty⟩

/-- The arena of nodes: the `nodes` slice built by `buildTrie`, root at
position 0. -/
abbrev Arena := List Node

/-- Read a node (a Go pointer dereference; out-of-range never happens on
indices the code produces). -/
def getN (a : Arena) (i : Nat) : Node := (a[i]?).getD Node.empty

/-- Replace the node at index `i` (a Go in-place field update). -/
def setN (a : Arena) (i : Nat) (n : Node) : Arena := a.set i n

/-- The update `n.child[c] = j` of the Go insertion loop. -/
def withChild (n : Node) (c j : Nat) : Node :=
  { n with child := fun x => if x = c then some j else n.child x }

/-- The walk of `findBlice` starting from an arbitrary node: follow the
`child` edge for each byte, returning `none` as soon as an edge is
missing (the Go loop propagates the nil pointer and returns it). -/
def findBliceFrom (a : Arena) : Nat → List Nat → Option Nat
  | cur, [] => some cur
  | cur, c :: rest =>
    match (getN a cur).child c with
    | none => none
    | some j => findBliceFrom a j rest

/-- `findBlice` of ahocorasick.go: look a byte sequence up from the root. -/
def findBlice (a : Arena) (bs : List Nat) : Option Nat := findBliceFrom a 0 bs

/-- The inner loop of the first phase of `buildTrie`: walk pattern bytes
`rest` from node `cur` (whose path is `path`), allocating a fresh node
(appended at the end of the arena, as `nodes = append(nodes, c)` does)
whenever the needed `child` edge is missing.  Returns the new arena and
the node at the end of the walk.  The Go code additionally writes
`c.fail = m.root` when `len(path) == 1` and `c.suffix = m.root`; both
are the value 0 that fresh nodes already carry. -/
def insertFrom (a : Arena) (cur : Nat) (path : List Nat) : List Nat → Arena × Nat
  | [] => (a, cur)
  | c :: rest =>
    match (getN a cur).child c with
    | some j => insertFrom a j (path ++ [c]) rest
    | none =>
      let newId := a.length
      let newNode : Node :=
        { b := path ++ [c], output := false, index := 0, counter := 0,
          child := fun _ => none, fail := 0, suffix := 0, fails := fun _ => 0 }
      let a1 := setN a cur (withChild (getN a cur) c newId)
      insertFrom (a1 ++ [newNode]) newId (path ++ [c]) rest

/-- The `n.output = true; n.index = i` writes at the end of each
dictionary entry's insertion. -/
def markOutput (n : Node) (i : Nat) : Node := { n with output := true, index := i }

/-- The outer dictionary loop of `buildTrie`'s first phase: insert each
pattern in order, tagging its terminal node with the entry index `i`. -/
def insertList (a : Arena) (i : Nat) : List (List Nat) → Arena
  | [] => a
  | p :: rest =>
    let r := insertFrom a 0 [] p
    insertList (setN r.1 r.2 (markOutput (getN r.1 r.2) i)) (i + 1) rest

/-- The fail-link loop of `buildTrie`'s second phase for one node: try
`findBlice` on each proper suffix of the node's path, longest first, and
keep the first hit, falling back to the root (`if c.fail == nil
{ c.fail = m.root }`).  The argument is the node's path with its first
byte dropped, so the suffixes tried are exactly `c.b[1:], c.b[2:], …`
down to length 1, as in the source. -/
def failScan (a : Arena) : List Nat → Nat
  | [] => 0
  | c :: rest =>
    match findBlice a (c :: rest) with
    | some j => j
    | none => failScan a rest

/-- The suffix-link loop of the second phase for one node: the first
proper suffix (longest first) that resolves to an output node; the
provisional `c.suffix = m.root` from insertion survives otherwise. -/
def suffixScan (a : Arena) : List Nat → Nat
  | [] => 0
  | c :: rest =>
    match findBlice a (c :: rest) with
    | some j => if (getN a j).output then j else suffixScan a rest
    | none => suffixScan a rest

/-- The second phase of `buildTrie`.  The source walks the trie
breadth-first with a `list.List` queue and assigns `c.fail` and
`c.suffix` for every child `c` it dequeues; since every non-root node is
reachable from the root by exactly one `child` chain, the queue visits
every non-root node exactly once, and the values assigned to a node
depend only on its own path and on the `child` edges (via `findBlice`),
which this phase never modifies.  The sweep is therefore
order-independent and is embedded as a map over the arena that skips the
root (the only node with an empty path). -/
def setLinks (a : Arena) : Arena :=
  a.map (fun n =>
    if n.b = [] then n
    else { n with fail := failScan a n.b.tail, suffix := suffixScan a n.b.tail })

/-- The chase `for n.child[c] == nil && !n.root { n = n.fail }` of the
third phase of `buildTrie`, with explicit fuel.  Fail links of the built
trie strictly decrease path length, so any fuel of at least the arena
size reaches the loop's fixed point (proved below); the Go loop is this
function at sufficient fuel. -/
def chaseFails (a : Arena) : Nat → Nat → Nat → Nat
  | 0, i, _ => i
  | fuel + 1, i, c =>
    if i = 0 then i
    else
      match (getN a i).child c with
      | some _ => i
      | none => chaseFails a fuel ((getN a i).fail) c

/-- The third phase of `buildTrie`: precompute `fails[c]` for every node
and every byte.  As in the source, the chase reads only `child` and
`fail` fields, which this phase does not modify, so filling the table is
order-independent. -/
def setFailsPass (a : Arena) : Arena :=
  (List.range a.length).map (fun i =>
    let n := getN a i
    { n with fails := fun c => chaseFails a a.length i c })

/-- The root node created by `m.root = &node{root: true}`. -/
def rootNode : Node := Node.empty

/-- `buildTrie` of ahocorasick.go: insertion, fail/suffix links, fails
table. -/
def buildTrie (d : List (List Nat)) : Arena :=
  setFailsPass (setLinks (insertList [rootNode] 0 d))

/-- `Matcher` of ahocorasick.go: the match counter and the root's arena. -/
structure Matcher where
  counter : Nat
  nodes : Arena

/-- `NewMatcher`: build the trie; the counter starts at the Go zero
value 0. -/
def NewMatcher (d : List (List Nat)) : Matcher := ⟨0, buildTrie d⟩

/-- The write `f.counter = m.counter` marking node `i` as already
reported in the current call. -/
def markN (a : Arena) (i mc : Nat) : Arena :=
  setN a i { getN a i with counter := mc }

/-- The suffix-chain reporting loop of `Match`:
`for !f.suffix.root { f = f.suffix; if f.counter != m.counter { report }
else { break } }`, with explicit fuel (suffix links strictly decrease
path length, so arena-size fuel reaches the loop's exit; the Go loop is
this function at sufficient fuel). -/
def chainWalk (mc : Nat) : Nat → Arena → Nat → List Nat → Arena × List Nat
  | 0, a, _, hits => (a, hits)
  | fuel + 1, a, f, hits =>
    let s := (getN a f).suffix
    if s = 0 then (a, hits)
    else if (getN a s).counter ≠ mc then
      chainWalk mc fuel (markN a s mc) s (hits ++ [(getN a s).index])
    else (a, hits)

/-- The body of `Match`'s loop over input bytes, acting on the state
(arena, current node, hits so far). -/
def matchStep (mc : Nat) (st : Arena × Nat × List Nat) (c : Nat) :
    Arena × Nat × List Nat :=
  let a := st.1
  let n0 := st.2.1
  let hits := st.2.2
  let n1 := if n0 ≠ 0 ∧ (getN a n0).child c = none then (getN a n0).fails c else n0
  match (getN a n1).child c with
  | none => (a, n1, hits)
  | some f =>
    let st1 : Arena × List Nat :=
      if (getN a f).output ∧ (getN a f).counter ≠ mc then
        (markN a f mc, hits ++ [(getN a f).index])
      else (a, hits)
    let r := chainWalk mc st1.1.length st1.1 f st1.2
    (r.1, f, r.2)

/-- `Match` of ahocorasick.go as a state transformer: it increments the
matcher's counter (Go `int` arithmetic, modulo `2 ^ 64`), scans the
input from the root, and returns the updated matcher (the node counters
written by the duplicate suppression live in the returned arena)
together with the hits. -/
def Match (m : Matcher) (input : List Nat) : Matcher × List Nat :=
  let mc := (m.counter + 1) % W
  let r := input.foldl (matchStep mc) (m.nodes, 0, [])
  (⟨mc, r.1⟩, r.2.2)

/-- The result of a first `Match` call on a freshly built matcher. -/
def MatchRes (d : List (List Nat)) (s : List Nat) : List Nat :=
  (Match (NewMatcher d) s).2

-- Sanity checks against the spec's concrete scenarios (bytes of
-- "he" = [104,101], "she" = [115,104,101], "his" = [104,105,115],
-- "hers" = [104,101,114,115], "ushers" = [117,115,104,101,114,115]).
example :
    MatchRes [[104,101],[115,104,101],[104,105,115],[104,101,114,115]]
      [117,115,104,101,114,115] = [1, 0, 3] := by decide

example : MatchRes [[97],[97,98],[98,99]] [97,98,99] = [0, 1, 2] := by decide

example : MatchRes [[120,121,122]] [97,98,99] = [] := by decide

example : MatchRes [] [97,98,99] = [] := by decide

/-! ### V2: the chunked-arena pointer version (src/unnamed/part_000)

Same algorithm as V1, with `child` and `fails` slices allocated lazily
(`getChild`/`setChild`, `getFails`/`setFails`) and node storage grown in
`NODES_WIDTH` chunks.  A chunked table addressed as
`nodes[i / NODES_WIDTH][i % NODES_WIDTH]` at consecutive positions
`0, 1, …, nodes_counter - 1` is a flat sequence; it is embedded as a
list indexed by the flat position. -/

namespace V2

/-- The `node` type of part_000: `child []*node` and `fails []*node` are
nil until first written. -/
structure Node2 where
  b : List Nat
  output : Bool
  index : Nat
  counter : Nat
  child : Option (Nat → Option Nat)
  fail : Nat
  suffix : Nat
  fails : Option (Nat → Nat)

/-- The Go zero value `&node{}`. -/
def Node2.empty : Node2 :=
  { b := [], output := false, index := 0, counter := 0,
    child := none, fail := 0, suffix := 0, fails := none }

instance : Inhabited Node2 := ⟨Node2.empty⟩

abbrev Arena2 := List Node2

def getN2 (a : Arena2) (i : Nat) : Node2 := (a[i]?).getD Node2.empty

def setN2 (a : Arena2) (i : Nat) (n : Node2) : Arena2 := a.set i n

/-- `getChild` of part_000: nil slice means no children at all. -/
def getChild2 (n : Node2) (c : Nat) : Option Nat :=
  match n.child with
  | none => none
  | some f => f c

/-- `setChild` of part_000: allocate the slice on first write. -/
def setChild2 (n : Node2) (c j : Nat) : Node2 :=
  { n with child := some (fun x => if x = c then some j else getChild2 n x) }

/-- `getFails` of part_000. -/
def getFails2 (n : Node2) (c : Nat) : Option Nat :=
  match n.fails with
  | none => none
  | some f => some (f c)

def findBliceFrom2 (a : Arena2) : Nat → List Nat → Option Nat
  | cur, [] => some cur
  | cur, c :: rest =>
    match getChild2 (getN2 a cur) c with
    | none => none
    | some j => findBliceFrom2 a j rest

def findBlice2 (a : Arena2) (bs : List Nat) : Option Nat := findBliceFrom2 a 0 bs

def insertFrom2 (a : Arena2) (cur : Nat) (path : List Nat) : List Nat → Arena2 × Nat
  | [] => (a, cur)
  | c :: rest =>
    match getChild2 (getN2 a cur) c with
    | some j => insertFrom2 a j (path ++ [c]) rest
    | none =>
      let newId := a.length
      let newNode : Node2 :=
        { b := path ++ [c], output := false, index := 0, counter := 0,
          child := none, fail := 0, suffix := 0, fails := none }
      let a1 := setN2 a cur (setChild2 (getN2 a cur) c newId)
      insertFrom2 (a1 ++ [newNode]) newId (path ++ [c]) rest

def insertList2 (a : Arena2) (i : Nat) : List (List Nat) → Arena2
  | [] => a
  | p :: rest =>
    let r := insertFrom2 a 0 [] p
    insertList2
      (setN2 r.1 r.2 { getN2 r.1 r.2 with output := true, index := i }) (i + 1) rest

def failScan2 (a : Arena2) : List Nat → Nat
  | [] => 0
  | c :: rest =>
    match findBlice2 a (c :: rest) with
    | some j => j
    | none => failScan2 a rest

def suffixScan2 (a : Arena2) : List Nat → Nat
  | [] => 0
  | c :: rest =>
    match findBlice2 a (c :: rest) with
    | some j => if (getN2 a j).output then j else suffixScan2 a rest
    | none => suffixScan2 a rest

/-- The breadth-first fail/suffix sweep of part_000, embedded
order-independently exactly as for V1. -/
def setLinks2 (a : Arena2) : Arena2 :=
  a.map (fun n =>
    if n.b = [] then n
    else { n with fail := failScan2 a n.b.tail, suffix := suffixScan2 a n.b.tail })

def chaseFails2 (a : Arena2) : Nat → Nat → Nat → Nat
  | 0, i, _ => i
  | fuel + 1, i, c =>
    if i = 0 then i
    else
      match getChild2 (getN2 a i) c with
      | some _ => i
      | none => chaseFails2 a fuel ((getN2 a i).fail) c

/-- The third phase of part_000's `buildTrie`: `setFails` allocates the
slice and fills every entry, so after this pass `getFails` is total. -/
def setFailsPass2 (a : Arena2) : Arena2 :=
  (List.range a.length).map (fun i =>
    let n := getN2 a i
    { n with fails := some (fun c => chaseFails2 a a.length i c) })

def buildTrie2 (d : List (List Nat)) : Arena2 :=
  setFailsPass2 (setLinks2 (insertList2 [Node2.empty] 0 d))

def markN2 (a : Arena2) (i mc : Nat) : Arena2 :=
  setN2 a i { getN2 a i with counter := mc }

def chainWalk2 (mc : Nat) : Nat → Arena2 → Nat → List Nat → Arena2 × List Nat
  | 0, a, _, hits => (a, hits)
  | fuel + 1, a, f, hits =>
    let s := (getN2 a f).suffix
    if s = 0 then (a, hits)
    else if (getN2 a s).counter ≠ mc then
      chainWalk2 mc fuel (markN2 a s mc) s (hits ++ [(getN2 a s).index])
    else (a, hits)

/-- The loop body of part_000's `Match`.  The `.getD 0` discharges the
nil result `getFails` could return before the third build phase has
allocated the slice; after `buildTrie` every entry is present (in Go a
nil here would be dereferenced on the next line, which never happens on
a built matcher). -/
def matchStep2 (mc : Nat) (st : Arena2 × Nat × List Nat) (c : Nat) :
    Arena2 × Nat × List Nat :=
  let a := st.1
  let n0 := st.2.1
  let hits := st.2.2
  let n1 :=
    if n0 ≠ 0 ∧ getChild2 (getN2 a n0) c = none then
      (getFails2 (getN2 a n0) c).getD 0
    else n0
  match getChild2 (getN2 a n1) c with
  | none => (a, n1, hits)
  | some f =>
    let st1 : Arena2 × List Nat :=
      if (getN2 a f).output ∧ (getN2 a f).counter ≠ mc then
        (markN2 a f mc, hits ++ [(getN2 a f).index])
      else (a, hits)
    let r := chainWalk2 mc st1.1.length st1.1 f st1.2
    (r.1, f, r.2)

structure Matcher2 where
  counter : Nat
  nodes : Arena2

def NewMatcher2 (d : List (List Nat)) : Matcher2 := ⟨0, buildTrie2 d⟩

def Match2 (m : Matcher2) (input : List Nat) : Matcher2 × List Nat :=
  let mc := (m.counter + 1) % W
  let r := input.foldl (matchStep2 mc) (m.nodes, 0, [])
  (⟨mc, r.1⟩, r.2.2)

def MatchRes2 (d : List (List Nat)) (s : List Nat) : List Nat :=
  (Match2 (NewMatcher2 d) s).2

end V2

example :
    V2.MatchRes2 [[104,101],[115,104,101],[104,105,115],[104,101,114,115]]
      [117,115,104,101,114,115] = [1, 0, 3] := by decide

/-! ### V4: the int32-table version with a per-call marks map
(second document of src/unnamed/part_001)

Node links are `int32` table indices: 0 is the nil sentinel
(`table[0] = nil`), the root is at index 1.  `Match` takes no lock on
shared state: duplicate suppression uses a per-call `marks` map (a set
of node indices, embedded as a list with membership).  This version has
no `fails` table and no `root`/`counter` node fields, and its `Match`
follows the `fail` link at most once per input byte (an `if`, where the
other versions iterate via the precomputed `fails` arrays). -/

namespace V4

/-- The `node` type of the final version: `child []int32` is nil until
first written and a stored 0 means "no edge". -/
structure Node4 where
  b : List Nat
  output : Bool
  index : Nat
  child : Option (Nat → Nat)
  suffix : Nat
  fail : Nat

/-- The Go zero value `&node{}`. -/
def Node4.empty : Node4 :=
  { b := [], output := false, index := 0, child := none, suffix := 0, fail := 0 }

instance : Inhabited Node4 := ⟨Node4.empty⟩

/-- The `table [][]*node` grown in `TABLE_WIDTH` chunks, addressed by the
flat index `i` (`table[i / TABLE_WIDTH][i % TABLE_WIDTH]`); writes only
ever happen at consecutive indices `0, 1, …, tableSize - 1`, so the
chunked table is a flat list and `tableSize` its length. -/
abbrev Table := List (Option Node4)

/-- `tableGet`. -/
def tableGet (t : Table) (i : Nat) : Option Node4 := (t[i]?).getD none

/-- Dereference a table entry; the default is never reached on indices
the built automaton stores (in Go a nil entry would fault). -/
def tget (t : Table) (i : Nat) : Node4 := (tableGet t i).getD Node4.empty

def setT (t : Table) (i : Nat) (n : Node4) : Table := t.set i (some n)

/-- `getChild` of the final version: 0 when the slice is nil or the
entry unset. -/
def getChild4 (n : Node4) (c : Nat) : Nat :=
  match n.child with
  | none => 0
  | some f => f c

/-- `setChild`. -/
def setChild4 (n : Node4) (c j : Nat) : Node4 :=
  { n with child := some (fun x => if x = c then j else getChild4 n x) }

/-- `findBlice` of the final version: walk ids, 0 once an edge is
missing. -/
def findBlice4 (t : Table) : Nat → List Nat → Nat
  | i, [] => i
  | i, c :: rest =>
    if i = 0 then i else findBlice4 t (getChild4 (tget t i) c) rest

/-- The insertion walk: `tableSet(m.tableSize, c); n.setChild(b,
m.tableSize); m.tableSize += 1`, with `c.fail = 1` for depth-1 nodes and
`c.suffix = 1` provisionally. -/
def insertFrom4 (t : Table) (cur : Nat) (path : List Nat) : List Nat → Table × Nat
  | [] => (t, cur)
  | c :: rest =>
    let j := getChild4 (tget t cur) c
    if j = 0 then
      let newId := t.length
      let newNode : Node4 :=
        { b := path ++ [c], output := false, index := 0, child := none,
          suffix := 1, fail := if (path ++ [c]).length = 1 then 1 else 0 }
      let t1 := setT t cur (setChild4 (tget t cur) c newId)
      insertFrom4 (t1 ++ [some newNode]) newId (path ++ [c]) rest
    else insertFrom4 t j (path ++ [c]) rest

def insertList4 (t : Table) (i : Nat) : List (List Nat) → Table
  | [] => t
  | p :: rest =>
    let r := insertFrom4 t 1 [] p
    insertList4
      (setT r.1 r.2 { tget r.1 r.2 with output := true, index := i }) (i + 1) rest

/-- The fail-link loop: first nonzero `findBlice` over proper suffixes,
else the root id 1 (`if c.fail == 0 { c.fail = 1 }`). -/
def failScan4 (t : Table) : List Nat → Nat
  | [] => 1
  | c :: rest =>
    let r := findBlice4 t 1 (c :: rest)
    if r = 0 then failScan4 t rest else r

/-- The suffix-link loop: first proper suffix resolving (`si != 0`) to
an output node; the provisional 1 from insertion survives otherwise. -/
def suffixScan4 (t : Table) : List Nat → Nat
  | [] => 1
  | c :: rest =>
    let r := findBlice4 t 1 (c :: rest)
    if r ≠ 0 ∧ (tget t r).output then r else suffixScan4 t rest

/-- The breadth-first fail/suffix sweep, embedded order-independently as
for V1 (it reads only `child` edges and paths, which it never writes).
The final version has no third phase: no `fails` table is built. -/
def setLinks4 (t : Table) : Table :=
  t.map (fun e =>
    match e with
    | none => none
    | some n =>
      if n.b = [] then some n
      else some { n with fail := failScan4 t n.b.tail,
                         suffix := suffixScan4 t n.b.tail })

/-- `buildTrie` of the final version: `tableSet(0, nil); tableSet(1,
root); tableSize = 2`, insertion, fail/suffix links. -/
def buildTrie4 (d : List (List Nat)) : Table :=
  setLinks4 (insertList4 [none, some Node4.empty] 0 d)

/-- The suffix-chain reporting loop of the final `Match`:
`for f.suffix != 1 { fi = f.suffix; f = tableGet(fi); … }` with the
per-call marks set; fuel as for V1. -/
def chainWalk4 (t : Table) : Nat → Nat → List Nat → List Nat → List Nat × List Nat
  | 0, _, marks, hits => (marks, hits)
  | fuel + 1, fi, marks, hits =>
    let f := tget t fi
    if f.suffix = 1 then (marks, hits)
    else
      let fi2 := f.suffix
      if fi2 ∈ marks then (marks, hits)
      else chainWalk4 t fuel fi2 (marks ++ [fi2]) (hits ++ [(tget t fi2).index])

/-- The loop body of the final `Match` over one input byte.  The source
keeps both `ni` (the id) and `n` (the pointer), always in sync
(`ni = n.fail; n = m.tableGet(n.fail)` and `ni = fi; n = f`), so the
state carries the id alone.  Note the single `if ni != 1 && … { ni =
n.fail … }`: the fail link is followed at most once per byte. -/
def matchStep4 (t : Table) (st : Nat × List Nat × List Nat) (c : Nat) :
    Nat × List Nat × List Nat :=
  let ni := st.1
  let marks := st.2.1
  let hits := st.2.2
  let ni1 := if ni ≠ 1 ∧ getChild4 (tget t ni) c = 0 then (tget t ni).fail else ni
  let fi := getChild4 (tget t ni1) c
  if fi = 0 then (ni1, marks, hits)
  else
    let st1 : List Nat × List Nat :=
      if (tget t fi).output ∧ fi ∉ marks then
        (marks ++ [fi], hits ++ [(tget t fi).index])
      else (marks, hits)
    let r := chainWalk4 t t.length fi st1.1 st1.2
    (fi, r.1, r.2)

/-- `Match` of the final version: a fresh `marks` map per call, scan
from the root (id 1); no matcher state is touched. -/
def Match4 (t : Table) (input : List Nat) : List Nat :=
  (input.foldl (matchStep4 t) (1, [], [])).2.2

def MatchRes4 (d : List (List Nat)) (s : List Nat) : List Nat :=
  Match4 (buildTrie4 d) s

end V4

example :
    V4.MatchRes4 [[104,101],[115,104,101],[104,105,115],[104,101,114,115]]
      [117,115,104,101,114,115] = [1, 0, 3] := by decide

example : V4.MatchRes4 [[97],[97,98],[98,99]] [97,98,99] = [0, 1, 2] := by decide

-- The divergence: scanning "aab" against {"aac", "b"} needs two fail
-- hops at the third byte (node "aa" → "a" → root); V1 and V2 take them
-- through the precomputed fails tables, V4 stops after one.
example : MatchRes [[97,97,99],[98]] [97,97,98] = [1] := by decide
example : V2.MatchRes2 [[97,97,99],[98]] [97,97,98] = [1] := by decide
example : V4.MatchRes4 [[97,97,99],[98]] [97,97,98] = [] := by decide

/-! ### Frame properties of V1's `Match`: only counter fields change -/

/-- A node with its duplicate-suppression counter erased. -/
def stripCounter (n : Node) : Node := { n with counter := 0 }

lemma stripCounter_empty : stripCounter Node.empty = Node.empty := rfl

lemma getN_map_strip (a : Arena) (i : Nat) :
    getN (a.map stripCounter) i = stripCounter (getN a i) := by
  simp only [getN, List.getElem?_map]
  cases a[i]? <;> simp [stripCounter_empty]

lemma map_strip_markN (a : Arena) (i mc : Nat) :
    (markN a i mc).map stripCounter = a.map stripCounter := by
  apply List.ext_getElem?
  intro j
  simp only [markN, setN, List.getElem?_map, List.getElem?_set]
  by_cases h : i = j
  · subst h
    by_cases hl : i < a.length
    · simp only [hl, if_true, if_pos rfl]
      have : a[i]? = some (getN a i) := by
        simp [getN, List.getElem?_eq_getElem hl]
      simp [this, stripCounter]
    · simp [hl, List.getElem?_eq_none (Nat.le_of_not_lt hl)]
  · simp [h]

lemma chainWalk_map_strip (mc : Nat) :
    ∀ (fuel : Nat) (a : Arena) (f : Nat) (hits : List Nat),
      (chainWalk mc fuel a f hits).1.map stripCounter = a.map stripCounter := by
  intro fuel
  induction fuel with
  | zero => intro a f hits; rfl
  | succ k ih =>
    intro a f hits
    simp only [chainWalk]
    split
    · rfl
    · split
      · rw [ih]; exact map_strip_markN ..
      · rfl

lemma matchStep_map_strip (mc : Nat) (st : Arena × Nat × List Nat) (c : Nat) :
    ((matchStep mc st c).1).map stripCounter = st.1.map stripCounter := by
  simp only [matchStep]
  split
  · rfl
  · split
    · rw [chainWalk_map_strip, map_strip_markN]
    · rw [chainWalk_map_strip]

lemma foldl_matchStep_map_strip (mc : Nat) (s : List Nat) :
    ∀ st : Arena × Nat × List Nat,
      ((s.foldl (matchStep mc) st).1).map stripCounter = st.1.map stripCounter := by
  induction s with
  | nil => intro st; rfl
  | cons c rest ih =>
    intro st
    rw [List.foldl_cons, ih, matchStep_map_strip]

/-! ### Arena access toolkit -/

lemma setN_length (a : Arena) (i : Nat) (n : Node) : (setN a i n).length = a.length :=
  List.length_set ..

lemma getN_default (a : Arena) (i : Nat) (h : a.length ≤ i) : getN a i = Node.empty := by
  simp [getN, List.getElem?_eq_none h]

lemma getN_set_self (a : Arena) (i : Nat) (n : Node) (h : i < a.length) :
    getN (setN a i n) i = n := by
  simp [getN, setN, List.getElem?_set_self, h]

lemma getN_set_ne (a : Arena) (i : Nat) (n : Node) (j : Nat) (h : i ≠ j) :
    getN (setN a i n) j = getN a j := by
  simp [getN, setN, List.getElem?_set_ne h]

lemma getN_set (a : Arena) (i : Nat) (n : Node) (j : Nat) :
    getN (setN a i n) j =
      if i = j then (if i < a.length then n else Node.empty) else getN a j := by
  by_cases h : i = j
  · subst h
    by_cases hl : i < a.length
    · simp [getN_set_self a i n hl, hl]
    · rw [if_pos rfl, if_neg hl, getN_default]
      rw [setN_length]
      exact Nat.le_of_not_lt hl
  · simp [h, getN_set_ne a i n j h]

lemma getN_append_lt (a l : Arena) (i : Nat) (h : i < a.length) :
    getN (a ++ l) i = getN a i := by
  simp [getN, List.getElem?_append, h]

lemma getN_append_self (a : Arena) (n : Node) : getN (a ++ [n]) a.length = n := by
  simp [getN]

lemma getN_append_ge (a l : Arena) (i : Nat) (h : a.length ≤ i) :
    getN (a ++ l) i = getN l (i - a.length) := by
  simp [getN, List.getElem?_append_right h]

/-- Pointwise properties of every readable node of an arena (including
the default node returned for out-of-range reads). -/
def AllN (P : Node → Prop) (a : Arena) : Prop := ∀ i, P (getN a i)

lemma AllN_empty {P : Node → Prop} {a : Arena} (ha : AllN P a) : P Node.empty := by
  have h0 := ha a.length
  rwa [getN_default a a.length (Nat.le_refl _)] at h0

lemma AllN_set {P : Node → Prop} {a : Arena} {i : Nat} {n : Node}
    (ha : AllN P a) (hn : P n) : AllN P (setN a i n) := by
  intro j
  rw [getN_set]
  split
  · split
    · exact hn
    · exact AllN_empty ha
  · exact ha j

lemma AllN_append1 {P : Node → Prop} {a : Arena} {n : Node}
    (ha : AllN P a) (hn : P n) : AllN P (a ++ [n]) := by
  intro j
  rcases Nat.lt_trichotomy j a.length with h | h | h
  · rw [getN_append_lt a _ j h]; exact ha j
  · subst h; rw [getN_append_self]; exact hn
  · rw [getN_default]
    exact AllN_empty ha
    simpa using h

/-! ### Reading the build phases -/

lemma setLinks_length (a : Arena) : (setLinks a).length = a.length :=
  List.length_map ..

lemma getN_setLinks (a : Arena) (i : Nat) (h : i < a.length) :
    getN (setLinks a) i =
      (if (getN a i).b = [] then getN a i
       else { getN a i with fail := failScan a (getN a i).b.tail,
                            suffix := suffixScan a (getN a i).b.tail }) := by
  simp only [setLinks, getN, List.getElem?_map, List.getElem?_eq_getElem h]
  simp

lemma setFailsPass_length (a : Arena) : (setFailsPass a).length = a.length := by
  simp [setFailsPass]

lemma getN_setFailsPass (a : Arena) (i : Nat) (h : i < a.length) :
    getN (setFailsPass a) i =
      { getN a i with fails := fun c => chaseFails a a.length i c } := by
  simp only [setFailsPass, getN, List.getElem?_map, List.getElem?_range, h, if_pos]
  simp

/-- Generic preservation of a pointwise node property through the
insertion walk. -/
lemma AllN_insertFrom {P : Node → Prop}
    (hw : ∀ n c j, P n → P (withChild n c j))
    (hfresh : ∀ bs, P { b := bs, output := false, index := 0, counter := 0,
                        child := fun _ => none, fail := 0, suffix := 0,
                        fails := fun _ => 0 }) :
    ∀ (rest : List Nat) (a : Arena) (cur : Nat) (path : List Nat),
      AllN P a → AllN P (insertFrom a cur path rest).1 := by
  intro rest
  induction rest with
  | nil => intro a cur path ha; exact ha
  | cons c r ih =>
    intro a cur path ha
    simp only [insertFrom]
    split
    · exact ih _ _ _ ha
    · exact ih _ _ _ (AllN_append1 (AllN_set ha (hw _ _ _ (ha cur))) (hfresh _))

/-- Generic preservation through the whole insertion phase. -/
lemma AllN_insertList {P : Node → Prop}
    (hw : ∀ n c j, P n → P (withChild n c j))
    (hfresh : ∀ bs, P { b := bs, output := false, index := 0, counter := 0,
                        child := fun _ => none, fail := 0, suffix := 0,
                        fails := fun _ => 0 })
    (hm : ∀ n i, P n → P (markOutput n i)) :
    ∀ (d : List (List Nat)) (a : Arena) (i : Nat),
      AllN P a → AllN P (insertList a i d) := by
  intro d
  induction d with
  | nil => intro a i ha; exact ha
  | cons p r ih =>
    intro a i ha
    simp only [insertList]
    exact ih _ _ (AllN_set (AllN_insertFrom hw hfresh p a 0 [] ha)
      (hm _ _ (AllN_insertFrom hw hfresh p a 0 [] ha _)))

lemma AllN_setLinks {P : Node → Prop} {a : Arena}
    (hP : ∀ n fl sf, P n → P { n with fail := fl, suffix := sf })
    (ha : AllN P a) : AllN P (setLinks a) := by
  intro i
  by_cases h : i < a.length
  · rw [getN_setLinks a i h]
    split
    · exact ha i
    · exact hP _ _ _ (ha i)
  · rw [getN_default]
    · exact AllN_empty ha
    · rw [setLinks_length]; exact Nat.le_of_not_lt h

lemma AllN_setFailsPass {P : Node → Prop} {a : Arena}
    (hP : ∀ n g, P n → P { n with fails := g })
    (ha : AllN P a) : AllN P (setFailsPass a) := by
  intro i
  by_cases h : i < a.length
  · rw [getN_setFailsPass a i h]
    exact hP _ _ (ha i)
  · rw [getN_default]
    · exact AllN_empty ha
    · rw [setFailsPass_length]; exact Nat.le_of_not_lt h

/-- Construction leaves every duplicate-suppression counter at its Go
zero value. -/
lemma buildTrie_counter_zero (d : List (List Nat)) :
    AllN (fun n => n.counter = 0) (buildTrie d) := by
  have h0 : AllN (fun n => n.counter = 0) [rootNode] := by
    intro i
    match i with
    | 0 => rfl
    | i + 1 => rw [getN_default _ _ (by simp)]; rfl
  have h1 := AllN_insertList (P := fun n => n.counter = 0)
    (fun n c j h => h) (fun bs => rfl) (fun n i h => h) d [rootNode] 0 h0
  exact AllN_setFailsPass (fun n g h => h) (AllN_setLinks (fun n fl sf h => h) h1)

/-! ### C5 infrastructure: call sequences, counter bounds, bisimulation -/

lemma Match_counter (m : Matcher) (s : List Nat) :
    (Match m s).1.counter = (m.counter + 1) % W := rfl

lemma Match_nodes (m : Matcher) (s : List Nat) :
    (Match m s).1.nodes =
      (s.foldl (matchStep ((m.counter + 1) % W)) (m.nodes, 0, [])).1 := rfl

lemma Match_hits (m : Matcher) (s : List Nat) :
    (Match m s).2 =
      (s.foldl (matchStep ((m.counter + 1) % W)) (m.nodes, 0, [])).2.2 := rfl

/-- A sequence of `Match` calls, keeping only the matcher state. -/
def applyCalls (m : Matcher) : List (List Nat) → Matcher
  | [] => m
  | s :: rest => applyCalls (Match m s).1 rest

lemma applyCalls_strip :
    ∀ (L : List (List Nat)) (m : Matcher),
      (applyCalls m L).nodes.map stripCounter = m.nodes.map stripCounter := by
  intro L
  induction L with
  | nil => intro m; rfl
  | cons s r ih =>
    intro m
    rw [applyCalls, ih]
    exact foldl_matchStep_map_strip ..

lemma applyCalls_counter :
    ∀ (L : List (List Nat)) (m : Matcher), m.counter + L.length < W →
      (applyCalls m L).counter = m.counter + L.length := by
  intro L
  induction L with
  | nil => intro m _; rfl
  | cons s r ih =>
    intro m h
    simp only [List.length_cons] at h
    rw [applyCalls]
    have hst : (Match m s).1.counter = m.counter + 1 := by
      rw [Match_counter]
      exact Nat.mod_eq_of_lt (by omega)
    have hlt : (Match m s).1.counter + r.length < W := by rw [hst]; omega
    rw [ih _ hlt, hst]
    simp only [List.length_cons]
    omega

/-- Every node counter stays at most the matcher counter. -/
def CountersLe (m : Matcher) : Prop :=
  ∀ i, (getN m.nodes i).counter ≤ m.counter

lemma countersLe_NewMatcher (d : List (List Nat)) : CountersLe (NewMatcher d) :=
  fun i => Nat.le_of_eq (buildTrie_counter_zero d i)

lemma counters_le_chainWalk {mc bound : Nat} (hmc : mc ≤ bound) :
    ∀ (fuel : Nat) (a : Arena) (f : Nat) (hits : List Nat),
      AllN (fun n => n.counter ≤ bound) a →
      AllN (fun n => n.counter ≤ bound) (chainWalk mc fuel a f hits).1 := by
  intro fuel
  induction fuel with
  | zero => intro a f hits ha; exact ha
  | succ k ih =>
    intro a f hits ha
    simp only [chainWalk]
    split
    · exact ha
    · split
      · exact ih _ _ _ (AllN_set ha hmc)
      · exact ha

lemma counters_le_matchStep {mc bound : Nat} (hmc : mc ≤ bound)
    (st : Arena × Nat × List Nat) (c : Nat)
    (ha : AllN (fun n => n.counter ≤ bound) st.1) :
    AllN (fun n => n.counter ≤ bound) (matchStep mc st c).1 := by
  simp only [matchStep]
  split
  · exact ha
  · split
    · exact counters_le_chainWalk hmc _ _ _ _ (AllN_set ha hmc)
    · exact counters_le_chainWalk hmc _ _ _ _ ha

lemma counters_le_foldl {mc bound : Nat} (hmc : mc ≤ bound) :
    ∀ (s : List Nat) (st : Arena × Nat × List Nat),
      AllN (fun n => n.counter ≤ bound) st.1 →
      AllN (fun n => n.counter ≤ bound) ((s.foldl (matchStep mc) st)).1 := by
  intro s
  induction s with
  | nil => intro st ha; exact ha
  | cons c r ih =>
    intro st ha
    rw [List.foldl_cons]
    exact ih _ (counters_le_matchStep hmc st c ha)

lemma countersLe_Match {m : Matcher} (s : List Nat)
    (h : CountersLe m) (hw : m.counter + 1 < W) : CountersLe (Match m s).1 := by
  intro i
  have hmc : (m.counter + 1) % W = m.counter + 1 := Nat.mod_eq_of_lt hw
  have ha : AllN (fun n => n.counter ≤ (m.counter + 1) % W) m.nodes := by
    intro j
    rw [hmc]
    exact Nat.le_succ_of_le (h j)
  have h2 := @counters_le_foldl ((m.counter + 1) % W) ((m.counter + 1) % W)
    (Nat.le_refl _) s (m.nodes, 0, []) ha i
  rw [Match_nodes, Match_counter]
  rw [hmc] at h2 ⊢
  exact h2

lemma countersLe_applyCalls :
    ∀ (L : List (List Nat)) (m : Matcher), CountersLe m →
      m.counter + L.length < W → CountersLe (applyCalls m L) := by
  intro L
  induction L with
  | nil => intro m hm _; exact hm
  | cons s r ih =>
    intro m hm h
    simp only [List.length_cons] at h
    rw [applyCalls]
    have hct : (Match m s).1.counter = m.counter + 1 := by
      rw [Match_counter]
      exact Nat.mod_eq_of_lt (by omega)
    exact ih _ (countersLe_Match s hm (by omega)) (by rw [hct]; omega)

/-- Two arenas with the same structure (everything but counters). -/
def sameStrip (a1 a2 : Arena) : Prop :=
  a1.map stripCounter = a2.map stripCounter

lemma sameStrip_getN {a1 a2 : Arena} (h : sameStrip a1 a2) (i : Nat) :
    stripCounter (getN a1 i) = stripCounter (getN a2 i) := by
  rw [← getN_map_strip, ← getN_map_strip, h]

lemma sameStrip_length {a1 a2 : Arena} (h : sameStrip a1 a2) :
    a1.length = a2.length := by
  have := congrArg List.length h
  simpa using this

lemma sameStrip_child {a1 a2 : Arena} (h : sameStrip a1 a2) (i : Nat) :
    (getN a1 i).child = (getN a2 i).child := by
  have h2 := congrArg Node.child (sameStrip_getN h i)
  exact h2

lemma sameStrip_fails {a1 a2 : Arena} (h : sameStrip a1 a2) (i : Nat) :
    (getN a1 i).fails = (getN a2 i).fails := by
  have h2 := congrArg Node.fails (sameStrip_getN h i)
  exact h2

lemma sameStrip_suffix {a1 a2 : Arena} (h : sameStrip a1 a2) (i : Nat) :
    (getN a1 i).suffix = (getN a2 i).suffix := by
  have h2 := congrArg Node.suffix (sameStrip_getN h i)
  exact h2

lemma sameStrip_output {a1 a2 : Arena} (h : sameStrip a1 a2) (i : Nat) :
    (getN a1 i).output = (getN a2 i).output := by
  have h2 := congrArg Node.output (sameStrip_getN h i)
  exact h2

lemma sameStrip_index {a1 a2 : Arena} (h : sameStrip a1 a2) (i : Nat) :
    (getN a1 i).index = (getN a2 i).index := by
  have h2 := congrArg Node.index (sameStrip_getN h i)
  exact h2

/-- The duplicate-suppression states of two runs agree: a node is
stamped with the first run's call counter exactly when it is stamped
with the second run's. -/
def markEquiv (mc1 mc2 : Nat) (a1 a2 : Arena) : Prop :=
  ∀ i, ((getN a1 i).counter = mc1 ↔ (getN a2 i).counter = mc2)

lemma markN_length (a : Arena) (i mc : Nat) : (markN a i mc).length = a.length :=
  setN_length ..

lemma sameStrip_markN {a1 a2 : Arena} {s mc1 mc2 : Nat} (hs : sameStrip a1 a2) :
    sameStrip (markN a1 s mc1) (markN a2 s mc2) := by
  unfold sameStrip
  rw [map_strip_markN, map_strip_markN]
  exact hs

lemma markEquiv_markN {a1 a2 : Arena} {s mc1 mc2 : Nat}
    (hm : markEquiv mc1 mc2 a1 a2) (hs : sameStrip a1 a2) :
    markEquiv mc1 mc2 (markN a1 s mc1) (markN a2 s mc2) := by
  intro i
  have hlen := sameStrip_length hs
  simp only [markN, getN_set]
  by_cases h : s = i
  · subst h
    by_cases hl : s < a1.length
    · have hl2 : s < a2.length := hlen ▸ hl
      simp [hl, hl2]
    · have hl2 : ¬ s < a2.length := hlen ▸ hl
      simp only [if_pos rfl, if_neg hl, if_neg hl2]
      have e1 : getN a1 s = Node.empty := getN_default a1 s (Nat.le_of_not_lt hl)
      have e2 : getN a2 s = Node.empty := getN_default a2 s (Nat.le_of_not_lt hl2)
      have := hm s
      rwa [e1, e2] at this
  · simp only [if_neg h]
    exact hm i

lemma chainWalk_bisim {mc1 mc2 : Nat} :
    ∀ (fuel : Nat) (a1 a2 : Arena) (f : Nat) (hits : List Nat),
      sameStrip a1 a2 → markEquiv mc1 mc2 a1 a2 →
      (chainWalk mc1 fuel a1 f hits).2 = (chainWalk mc2 fuel a2 f hits).2 ∧
        sameStrip (chainWalk mc1 fuel a1 f hits).1 (chainWalk mc2 fuel a2 f hits).1 ∧
        markEquiv mc1 mc2 (chainWalk mc1 fuel a1 f hits).1
          (chainWalk mc2 fuel a2 f hits).1 := by
  intro fuel
  induction fuel with
  | zero => intro a1 a2 f hits hs hm; exact ⟨rfl, hs, hm⟩
  | succ k ih =>
    intro a1 a2 f hits hs hm
    have hsuf : (getN a2 f).suffix = (getN a1 f).suffix := (sameStrip_suffix hs f).symm
    simp only [chainWalk, hsuf]
    by_cases h0 : (getN a1 f).suffix = 0
    · rw [if_pos h0, if_pos h0]
      exact ⟨rfl, hs, hm⟩
    · rw [if_neg h0, if_neg h0]
      by_cases hc1 : (getN a1 ((getN a1 f).suffix)).counter = mc1
      · have hc2 : (getN a2 ((getN a1 f).suffix)).counter = mc2 :=
          (hm _).1 hc1
        rw [if_neg (not_not_intro hc1), if_neg (not_not_intro hc2)]
        exact ⟨rfl, hs, hm⟩
      · have hc2 : ¬ (getN a2 ((getN a1 f).suffix)).counter = mc2 :=
          fun h2 => hc1 ((hm _).2 h2)
        rw [if_pos hc1, if_pos hc2]
        have hidx : (getN a2 ((getN a1 f).suffix)).index =
            (getN a1 ((getN a1 f).suffix)).index := (sameStrip_index hs _).symm
        rw [hidx]
        exact ih (markN a1 _ mc1) (markN a2 _ mc2) _ _
          (sameStrip_markN hs) (markEquiv_markN hm hs)

lemma matchStep_bisim {mc1 mc2 : Nat} (a1 a2 : Arena) (n : Nat) (hits : List Nat)
    (c : Nat) (hs : sameStrip a1 a2) (hm : markEquiv mc1 mc2 a1 a2) :
    (matchStep mc1 (a1, n, hits) c).2 = (matchStep mc2 (a2, n, hits) c).2 ∧
      sameStrip (matchStep mc1 (a1, n, hits) c).1 (matchStep mc2 (a2, n, hits) c).1 ∧
      markEquiv mc1 mc2 (matchStep mc1 (a1, n, hits) c).1
        (matchStep mc2 (a2, n, hits) c).1 := by
  have hchild2 : ∀ i, (getN a2 i).child = (getN a1 i).child :=
    fun i => (sameStrip_child hs i).symm
  have hfails2 : ∀ i, (getN a2 i).fails = (getN a1 i).fails :=
    fun i => (sameStrip_fails hs i).symm
  simp only [matchStep, hchild2, hfails2]
  cases hf : (getN a1 (if n ≠ 0 ∧ (getN a1 n).child c = none
      then (getN a1 n).fails c else n)).child c with
  | none => exact ⟨rfl, hs, hm⟩
  | some f =>
    have hout2 : (getN a2 f).output = (getN a1 f).output :=
      (sameStrip_output hs f).symm
    have hidx2 : (getN a2 f).index = (getN a1 f).index :=
      (sameStrip_index hs f).symm
    simp only [hout2, hidx2]
    by_cases hmk : (getN a1 f).output = true ∧ (getN a1 f).counter ≠ mc1
    · have hmk2 : (getN a1 f).output = true ∧ (getN a2 f).counter ≠ mc2 :=
        ⟨hmk.1, fun h2 => hmk.2 ((hm f).2 h2)⟩
      rw [if_pos hmk, if_pos hmk2]
      have hflen : (markN a2 f mc2).length = (markN a1 f mc1).length := by
        rw [markN_length, markN_length, sameStrip_length hs]
      rw [hflen]
      have hcw := chainWalk_bisim (markN a1 f mc1).length (markN a1 f mc1)
        (markN a2 f mc2) f (hits ++ [(getN a1 f).index])
        (sameStrip_markN hs) (markEquiv_markN hm hs)
      refine ⟨?_, hcw.2.1, hcw.2.2⟩
      simp only [Prod.mk.injEq]
      exact ⟨trivial, hcw.1⟩
    · have hmk2 : ¬ ((getN a1 f).output = true ∧ (getN a2 f).counter ≠ mc2) :=
        fun h2 => hmk ⟨h2.1, fun h1 => h2.2 ((hm f).1 h1)⟩
      rw [if_neg hmk, if_neg hmk2]
      have hflen : a2.length = a1.length := (sameStrip_length hs).symm
      rw [hflen]
      have hcw := chainWalk_bisim a1.length a1 a2 f hits hs hm
      refine ⟨?_, hcw.2.1, hcw.2.2⟩
      simp only [Prod.mk.injEq]
      exact ⟨trivial, hcw.1⟩

lemma foldl_bisim {mc1 mc2 : Nat} :
    ∀ (s : List Nat) (a1 a2 : Arena) (n : Nat) (hits : List Nat),
      sameStrip a1 a2 → markEquiv mc1 mc2 a1 a2 →
      (s.foldl (matchStep mc1) (a1, n, hits)).2 =
          (s.foldl (matchStep mc2) (a2, n, hits)).2 ∧
        sameStrip (s.foldl (matchStep mc1) (a1, n, hits)).1
          (s.foldl (matchStep mc2) (a2, n, hits)).1 := by
  intro s
  induction s with
  | nil => intro a1 a2 n hits hs hm; exact ⟨rfl, hs⟩
  | cons c r ih =>
    intro a1 a2 n hits hs hm
    rw [List.foldl_cons, List.foldl_cons]
    have hstep := matchStep_bisim a1 a2 n hits c hs hm
    obtain ⟨h2, hs2, hm2⟩ := hstep
    have e1 : matchStep mc1 (a1, n, hits) c =
        ((matchStep mc1 (a1, n, hits) c).1, (matchStep mc1 (a1, n, hits) c).2) := rfl
    have e2 : matchStep mc2 (a2, n, hits) c =
        ((matchStep mc2 (a2, n, hits) c).1, (matchStep mc2 (a2, n, hits) c).2) := rfl
    rw [e1, e2, ← h2]
    obtain ⟨n2, h2'⟩ := (matchStep mc1 (a1, n, hits) c).2
    exact ih _ _ _ _ hs2 hm2

/-- Two matchers with the same structure and both free of stale stamps
for their next call produce identical hits on any input. -/
lemma Match_bisim (m1 m2 : Matcher) (s : List Nat)
    (hs : sameStrip m1.nodes m2.nodes)
    (hfresh1 : ∀ i, (getN m1.nodes i).counter ≠ (m1.counter + 1) % W)
    (hfresh2 : ∀ i, (getN m2.nodes i).counter ≠ (m2.counter + 1) % W) :
    (Match m1 s).2 = (Match m2 s).2 := by
  rw [Match_hits, Match_hits]
  have h := (foldl_bisim s m1.nodes m2.nodes 0 [] hs
    (fun i => ⟨fun h => absurd h (hfresh1 i), fun h => absurd h (hfresh2 i)⟩)).1
  have h2 := congrArg Prod.snd h
  exact h2

/-! ### List helpers: suffixes, snoc decompositions, infix facts -/

lemma isPrefixOf_eq_true_iff (l1 l2 : List Nat) : l1.isPrefixOf l2 = true ↔ l1 <+: l2 := by
  exact List.isPrefixOf_iff_prefix

lemma suffix_snoc_inv {v u : List Nat} {c : Nat} (h : v <:+ (u ++ [c])) (hne : v ≠ []) :
    ∃ t, v = t ++ [c] ∧ t <:+ u := by
  obtain ⟨s, hs⟩ := h
  rcases List.eq_nil_or_concat v with rfl | ⟨t, x, rfl⟩
  · exact absurd rfl hne
  · rw [List.concat_eq_append, ← List.append_assoc] at hs
    obtain ⟨h1, h2⟩ := List.append_inj' hs rfl
    have hx : x = c := by simpa using h2
    exact ⟨t, by rw [List.concat_eq_append, hx], ⟨s, h1⟩⟩

lemma suffix_snoc_mono {t u : List Nat} (c : Nat) (h : t <:+ u) :
    t ++ [c] <:+ u ++ [c] := by
  obtain ⟨s, hs⟩ := h
  exact ⟨s, by rw [← List.append_assoc, hs]⟩

lemma suffix_length_le {t u : List Nat} (h : t <:+ u) : t.length ≤ u.length := by
  obtain ⟨s, hs⟩ := h
  subst hs
  simp

lemma suffix_iff_reverse (t l : List Nat) : t <:+ l ↔ t.reverse <+: l.reverse := by
  have h := @List.reverse_suffix Nat t.reverse l.reverse
  simpa using h

lemma suffix_of_suffix_le {t1 t2 l : List Nat} (h1 : t1 <:+ l) (h2 : t2 <:+ l)
    (hlen : t1.length ≤ t2.length) : t1 <:+ t2 := by
  rw [suffix_iff_reverse] at h1 h2 ⊢
  exact List.prefix_of_prefix_length_le h1 h2 (by simpa using hlen)

lemma eq_of_mutual_suffix {t1 t2 : List Nat} (h1 : t1 <:+ t2) (h2 : t2 <:+ t1) :
    t1 = t2 := by
  obtain ⟨s, hs⟩ := h1
  have hlen := suffix_length_le h2
  have : s = [] := by
    have := congrArg List.length hs
    simp at this
    exact List.eq_nil_of_length_eq_zero (by omega)
  subst this
  simpa using hs

lemma suffix_within {p v : List Nat} (h : p <:+ v) : p <:+: v := by
  obtain ⟨s, hs⟩ := h
  exact ⟨s, [], by simp [hs]⟩

lemma within_of_suffix_within {y x u : List Nat} (h1 : y <:+ x) (h2 : x <:+: u) :
    y <:+: u := (suffix_within h1).trans h2

lemma infix_snoc_iff {p u : List Nat} {c : Nat} :
    p <:+: (u ++ [c]) ↔ p <:+: u ∨ p <:+ (u ++ [c]) := by
  constructor
  · rintro ⟨s, t, hst⟩
    rcases List.eq_nil_or_concat t with rfl | ⟨t2, x, rfl⟩
    · right
      exact ⟨s, by simpa using hst⟩
    · left
      rw [List.concat_eq_append, ← List.append_assoc] at hst
      obtain ⟨h1, _⟩ := List.append_inj' hst rfl
      exact ⟨s, t2, h1⟩
  · rintro (⟨s, t, hst⟩ | hsuf)
    · exact ⟨s, t ++ [c], by rw [← hst]; simp⟩
    · exact suffix_within hsuf

/-! ### Abstract trie model over the dictionary

These definitions speak only about the dictionary: which byte sequences
are trie paths, longest suffixes with a property, last occurrences.  The
build-characterisation lemmas below relate the arena the code builds to
them. -/

/-- Path membership in the trie of dictionary `d`: the empty path (the
root) or a prefix of some pattern. -/
def inTrie (d : List (List Nat)) (bs : List Nat) : Prop :=
  bs = [] ∨ ∃ p ∈ d, bs <+: p

instance inTrieDec (d : List (List Nat)) (bs : List Nat) : Decidable (inTrie d bs) := by
  unfold inTrie
  exact inferInstance

lemma inTrie_nil (d : List (List Nat)) : inTrie d [] := Or.inl rfl

lemma inTrie_of_mem {d : List (List Nat)} {p : List Nat} (h : p ∈ d) : inTrie d p :=
  Or.inr ⟨p, h, List.prefix_rfl⟩

lemma inTrie_of_pre {d : List (List Nat)} {t t' : List Nat}
    (hpre : t' <+: t) (h : inTrie d t) : inTrie d t' := by
  rcases h with rfl | ⟨p, hp, ht⟩
  · left
    exact List.prefix_nil.mp hpre
  · right
    exact ⟨p, hp, hpre.trans ht⟩

/-- The longest tail of `l` (`l` itself included, defaulting to `[]`)
that is a trie path. -/
def longestTrieSuffix (d : List (List Nat)) : List Nat → List Nat
  | [] => []
  | c :: rest =>
    if inTrie d (c :: rest) then c :: rest else longestTrieSuffix d rest

lemma lts_suffix (d : List (List Nat)) :
    ∀ l, longestTrieSuffix d l <:+ l := by
  intro l
  induction l with
  | nil => exact List.suffix_rfl
  | cons c rest ih =>
    rw [longestTrieSuffix]
    split
    · exact List.suffix_rfl
    · exact ih.trans ⟨[c], rfl⟩

lemma lts_inTrie (d : List (List Nat)) :
    ∀ l, inTrie d (longestTrieSuffix d l) := by
  intro l
  induction l with
  | nil => exact inTrie_nil d
  | cons c rest ih =>
    rw [longestTrieSuffix]
    split
    · assumption
    · exact ih

lemma lts_max (d : List (List Nat)) :
    ∀ l t, t <:+ l → inTrie d t → t <:+ longestTrieSuffix d l := by
  intro l
  induction l with
  | nil => intro t ht _; exact ht
  | cons c rest ih =>
    intro t ht hin
    rw [longestTrieSuffix]
    rcases List.suffix_cons_iff.mp ht with rfl | hrest
    · rw [if_pos hin]
    · split
      · exact hrest.trans ⟨[c], rfl⟩
      · exact ih t hrest hin

lemma lts_congr (d : List (List Nat)) {l1 l2 : List Nat}
    (h : ∀ t, t ≠ [] → ((t <:+ l1 ∧ inTrie d t) ↔ (t <:+ l2 ∧ inTrie d t))) :
    longestTrieSuffix d l1 = longestTrieSuffix d l2 := by
  by_cases h1 : longestTrieSuffix d l1 = []
  · by_cases h2 : longestTrieSuffix d l2 = []
    · rw [h1, h2]
    · exfalso
      have hs2 := (h _ h2).mpr ⟨lts_suffix d l2, lts_inTrie d l2⟩
      have := lts_max d l1 _ hs2.1 hs2.2
      rw [h1] at this
      exact h2 (List.suffix_nil.mp this)
  · have hs1 := (h _ h1).mp ⟨lts_suffix d l1, lts_inTrie d l1⟩
    have h12 := lts_max d l2 _ hs1.1 hs1.2
    have h2 : longestTrieSuffix d l2 ≠ [] := by
      intro he
      rw [he] at h12
      exact h1 (List.suffix_nil.mp h12)
    have hs2 := (h _ h2).mpr ⟨lts_suffix d l2, lts_inTrie d l2⟩
    exact eq_of_mutual_suffix h12 (lts_max d l1 _ hs2.1 hs2.2)

/-- The automaton's state exchange: extending the longest trie suffix of
`u` by `c` and taking the longest trie suffix again is the same as doing
it on `u ++ [c]` directly (the classical Aho-Corasick state invariant). -/
lemma lts_exchange (d : List (List Nat)) (u : List Nat) (c : Nat) :
    longestTrieSuffix d (longestTrieSuffix d u ++ [c]) =
      longestTrieSuffix d (u ++ [c]) := by
  apply lts_congr
  intro t htne
  constructor
  · rintro ⟨hsuf, hin⟩
    exact ⟨hsuf.trans (suffix_snoc_mono c (lts_suffix d u)), hin⟩
  · rintro ⟨hsuf, hin⟩
    obtain ⟨t2, rfl, ht2⟩ := suffix_snoc_inv hsuf htne
    have hin2 : inTrie d t2 := inTrie_of_pre (List.prefix_append t2 [c]) hin
    exact ⟨suffix_snoc_mono c (lts_max d u t2 ht2 hin2), hin⟩

/-- The longest nonempty tail of `l` that is itself a dictionary
pattern, defaulting to `[]`. -/
def longestDictSuffix (d : List (List Nat)) : List Nat → List Nat
  | [] => []
  | c :: rest =>
    if (c :: rest) ∈ d then c :: rest else longestDictSuffix d rest

lemma lds_suffix (d : List (List Nat)) :
    ∀ l, longestDictSuffix d l <:+ l := by
  intro l
  induction l with
  | nil => exact List.suffix_rfl
  | cons c rest ih =>
    rw [longestDictSuffix]
    split
    · exact List.suffix_rfl
    · exact ih.trans ⟨[c], rfl⟩

lemma lds_mem (d : List (List Nat)) :
    ∀ l, longestDictSuffix d l ≠ [] → longestDictSuffix d l ∈ d := by
  intro l
  induction l with
  | nil => intro h; exact absurd rfl h
  | cons c rest ih =>
    rw [longestDictSuffix]
    split
    · intro _; assumption
    · exact ih

lemma lds_max (d : List (List Nat)) :
    ∀ l t, t ≠ [] → t <:+ l → t ∈ d → t <:+ longestDictSuffix d l := by
  intro l
  induction l with
  | nil => intro t _ ht _; exact ht
  | cons c rest ih =>
    intro t htne ht hmem
    rw [longestDictSuffix]
    rcases List.suffix_cons_iff.mp ht with rfl | hrest
    · rw [if_pos hmem]
    · split
      · exact hrest.trans ⟨[c], rfl⟩
      · exact ih t htne hrest hmem

/-- The target of the fails chase from a node with path `l` on byte `c`:
the longest suffix `t` of `l` (`l` itself included) with `t ++ [c]` a
trie path, defaulting to `[]` (the root). -/
def chaseTarget (d : List (List Nat)) (c : Nat) : List Nat → List Nat
  | [] => []
  | x :: rest =>
    if inTrie d ((x :: rest) ++ [c]) then x :: rest else chaseTarget d c rest

lemma ct_suffix (d : List (List Nat)) (c : Nat) :
    ∀ l, chaseTarget d c l <:+ l := by
  intro l
  induction l with
  | nil => exact List.suffix_rfl
  | cons x rest ih =>
    rw [chaseTarget]
    split
    · exact List.suffix_rfl
    · exact ih.trans ⟨[x], rfl⟩

lemma ct_inTrie (d : List (List Nat)) (c : Nat) :
    ∀ l, chaseTarget d c l ≠ [] → inTrie d (chaseTarget d c l ++ [c]) := by
  intro l
  induction l with
  | nil => intro h; exact absurd rfl h
  | cons x rest ih =>
    rw [chaseTarget]
    split
    · intro _; assumption
    · exact ih

lemma ct_max (d : List (List Nat)) (c : Nat) :
    ∀ l t, t <:+ l → inTrie d (t ++ [c]) → t <:+ chaseTarget d c l := by
  intro l
  induction l with
  | nil => intro t ht _; exact ht
  | cons x rest ih =>
    intro t ht hin
    rw [chaseTarget]
    rcases List.suffix_cons_iff.mp ht with rfl | hrest
    · rw [if_pos hin]
    · split
      · exact hrest.trans ⟨[x], rfl⟩
      · exact ih t hrest hin

lemma ct_congr (d : List (List Nat)) (c : Nat) {l1 l2 : List Nat}
    (h : ∀ t, t ≠ [] →
      ((t <:+ l1 ∧ inTrie d (t ++ [c])) ↔ (t <:+ l2 ∧ inTrie d (t ++ [c])))) :
    chaseTarget d c l1 = chaseTarget d c l2 := by
  by_cases h1 : chaseTarget d c l1 = []
  · by_cases h2 : chaseTarget d c l2 = []
    · rw [h1, h2]
    · exfalso
      have hs2 := (h _ h2).mpr ⟨ct_suffix d c l2, ct_inTrie d c l2 h2⟩
      have := ct_max d c l1 _ hs2.1 hs2.2
      rw [h1] at this
      exact h2 (List.suffix_nil.mp this)
  · have hs1 := (h _ h1).mp ⟨ct_suffix d c l1, ct_inTrie d c l1 h1⟩
    have h12 := ct_max d c l2 _ hs1.1 hs1.2
    have h2 : chaseTarget d c l2 ≠ [] := by
      intro he
      rw [he] at h12
      exact h1 (List.suffix_nil.mp h12)
    have hs2 := (h _ h2).mpr ⟨ct_suffix d c l2, ct_inTrie d c l2 h2⟩
    exact eq_of_mutual_suffix h12 (ct_max d c l1 _ hs2.1 hs2.2)

/-- Last-occurrence position of a pattern in the dictionary. -/
def IsLastOcc (d : List (List Nat)) (p : List Nat) (k : Nat) : Prop :=
  d[k]? = some p ∧ ∀ j, k < j → d[j]? ≠ some p

lemma IsLastOcc_unique {d : List (List Nat)} {p : List Nat} {k1 k2 : Nat}
    (h1 : IsLastOcc d p k1) (h2 : IsLastOcc d p k2) : k1 = k2 := by
  rcases Nat.lt_trichotomy k1 k2 with h | h | h
  · exact absurd h2.1 (h1.2 k2 h)
  · exact h
  · exact absurd h1.1 (h2.2 k1 h)

/-! ### Build characterisation: structural invariants of the arena -/

/-- Structural well-formedness of the arena: the root sits at index 0
with the empty path, child edges extend paths by one byte and never
point at the root, every non-root node has a parent edge, and paths are
unique.  Established by the insertion phase and untouched by the link
phases (which only write fail/suffix/fails fields). -/
structure Wf (a : Arena) : Prop where
  nz : 0 < a.length
  rootb : (getN a 0).b = []
  child_spec : ∀ i c j, i < a.length → (getN a i).child c = some j →
    j < a.length ∧ 0 < j ∧ (getN a j).b = (getN a i).b ++ [c]
  parent : ∀ j, 0 < j → j < a.length →
    ∃ i c, i < a.length ∧ (getN a i).child c = some j
  inj : ∀ i j, i < a.length → j < a.length → (getN a i).b = (getN a j).b → i = j

lemma Wf.b_ne_nil {a : Arena} (w : Wf a) {j : Nat} (h0 : 0 < j) (hj : j < a.length) :
    (getN a j).b ≠ [] := by
  obtain ⟨i, c, hi, hedge⟩ := w.parent j h0 hj
  have := (w.child_spec i c j hi hedge).2.2
  rw [this]
  simp

lemma Wf.eq_zero_of_b_nil {a : Arena} (w : Wf a) {j : Nat} (hj : j < a.length)
    (hb : (getN a j).b = []) : j = 0 := by
  by_contra hne
  exact w.b_ne_nil (Nat.pos_of_ne_zero hne) hj hb

/-- One arena extends another: old nodes keep their paths, output flags
and indices, old edges survive, and edges an old node gains point at new
nodes only. -/
structure Ext (a a2 : Arena) : Prop where
  len_le : a.length ≤ a2.length
  b_eq : ∀ i, i < a.length → (getN a2 i).b = (getN a i).b
  out_eq : ∀ i, i < a.length → (getN a2 i).output = (getN a i).output
  idx_eq : ∀ i, i < a.length → (getN a2 i).index = (getN a i).index
  child_old : ∀ i c j, i < a.length → (getN a i).child c = some j →
    (getN a2 i).child c = some j
  child_new : ∀ i c j, i < a.length → (getN a2 i).child c = some j →
    (getN a i).child c = some j ∨ a.length ≤ j

lemma Ext.refl (a : Arena) : Ext a a :=
  ⟨Nat.le_refl _, fun _ _ => rfl, fun _ _ => rfl, fun _ _ => rfl,
    fun _ _ _ _ h => h, fun _ _ _ _ h => Or.inl h⟩

lemma Ext.trans {a a2 a3 : Arena} (h1 : Ext a a2) (h2 : Ext a2 a3) : Ext a a3 := by
  refine ⟨h1.len_le.trans h2.len_le, ?_, ?_, ?_, ?_, ?_⟩
  · intro i hi
    rw [h2.b_eq i (Nat.lt_of_lt_of_le hi h1.len_le), h1.b_eq i hi]
  · intro i hi
    rw [h2.out_eq i (Nat.lt_of_lt_of_le hi h1.len_le), h1.out_eq i hi]
  · intro i hi
    rw [h2.idx_eq i (Nat.lt_of_lt_of_le hi h1.len_le), h1.idx_eq i hi]
  · intro i c j hi h
    exact h2.child_old i c j (Nat.lt_of_lt_of_le hi h1.len_le) (h1.child_old i c j hi h)
  · intro i c j hi h
    rcases h2.child_new i c j (Nat.lt_of_lt_of_le hi h1.len_le) h with h' | h'
    · exact h1.child_new i c j hi h'
    · exact Or.inr (h1.len_le.trans h')

/-- Everything `insertFrom` guarantees: structure is preserved, the
result is an extension, the returned node carries the full path, new
nodes are non-output nodes on strict extensions of `path` along `rest`,
and every intermediate path is present. -/
structure InsSpec (a : Arena) (path rest : List Nat) (out : Arena × Nat) : Prop where
  wf : Wf out.1
  ext : Ext a out.1
  last_lt : out.2 < out.1.length
  last_b : (getN out.1 out.2).b = path ++ rest
  news : ∀ i, a.length ≤ i → i < out.1.length →
    (getN out.1 i).output = false ∧
      ∃ k, 1 ≤ k ∧ k ≤ rest.length ∧ (getN out.1 i).b = path ++ rest.take k
  pres : ∀ k, k ≤ rest.length →
    ∃ i, i < out.1.length ∧ (getN out.1 i).b = path ++ rest.take k

lemma insertFrom_spec :
    ∀ (rest : List Nat) (a : Arena) (cur : Nat) (path : List Nat),
      Wf a → cur < a.length → (getN a cur).b = path →
      InsSpec a path rest (insertFrom a cur path rest) := by
  intro rest
  induction rest with
  | nil =>
    intro a cur path hw hcur hb
    refine ⟨hw, Ext.refl a, hcur, by simpa using hb, ?_, ?_⟩
    · intro i h1 h2
      exact absurd h2 (Nat.not_lt.mpr h1)
    · intro k hk
      have hk0 : k = 0 := by simpa using hk
      subst hk0
      exact ⟨cur, hcur, by simpa using hb⟩
  | cons c r ih =>
    intro a cur path hw hcur hb
    cases hedge : (getN a cur).child c with
    | some j =>
      simp only [insertFrom, hedge]
      obtain ⟨hj, hj0, hjb⟩ := hw.child_spec cur c j hcur hedge
      have hjb2 : (getN a j).b = path ++ [c] := by rw [hjb, hb]
      have spec := ih a j (path ++ [c]) hw hj hjb2
      refine ⟨spec.wf, spec.ext, spec.last_lt, ?_, ?_, ?_⟩
      · rw [spec.last_b]
        simp
      · intro i h1 h2
        obtain ⟨ho, k, hk1, hk2, hbk⟩ := spec.news i h1 h2
        refine ⟨ho, k + 1, by omega, by simp; omega, ?_⟩
        rw [hbk, List.take_succ_cons]
        simp
      · intro k hk
        cases k with
        | zero =>
          refine ⟨cur, Nat.lt_of_lt_of_le hcur spec.ext.len_le, ?_⟩
          rw [spec.ext.b_eq cur hcur, hb]
          simp
        | succ k2 =>
          obtain ⟨i, hi, hbi⟩ := spec.pres k2 (by simpa using hk)
          refine ⟨i, hi, ?_⟩
          rw [hbi, List.take_succ_cons]
          simp
    | none =>
      simp only [insertFrom, hedge]
      set newId := a.length with hnewId
      set nn : Node :=
        { b := path ++ [c], output := false, index := 0, counter := 0,
          child := fun _ => none, fail := 0, suffix := 0,
          fails := fun _ => 0 } with hnn
      set a1 := setN a cur (withChild (getN a cur) c newId) with ha1
      set a2 := a1 ++ [nn] with ha2
      have hlen1 : a1.length = a.length := setN_length ..
      have hlen2 : a2.length = a.length + 1 := by
        rw [ha2, List.length_append, hlen1]
        rfl
      have hget_cur : getN a2 cur = withChild (getN a cur) c newId := by
        rw [ha2, getN_append_lt a1 _ cur (by rw [hlen1]; exact hcur), ha1,
          getN_set_self a cur _ hcur]
      have hget_old : ∀ i, i < a.length → i ≠ cur → getN a2 i = getN a i := by
        intro i hi hne
        rw [ha2, getN_append_lt a1 _ i (by rw [hlen1]; exact hi), ha1,
          getN_set_ne a cur _ i (fun h => hne h.symm)]
      have hget_new : getN a2 newId = nn := by
        have := getN_append_self a1 nn
        rw [hlen1] at this
        rw [ha2]
        exact this
      have hb2 : ∀ i, i < a.length → (getN a2 i).b = (getN a i).b := by
        intro i hi
        by_cases hic : i = cur
        · subst hic
          rw [hget_cur]
          rfl
        · rw [hget_old i hi hic]
      have hout2 : ∀ i, i < a.length → (getN a2 i).output = (getN a i).output := by
        intro i hi
        by_cases hic : i = cur
        · subst hic
          rw [hget_cur]
          rfl
        · rw [hget_old i hi hic]
      have hidx2 : ∀ i, i < a.length → (getN a2 i).index = (getN a i).index := by
        intro i hi
        by_cases hic : i = cur
        · subst hic
          rw [hget_cur]
          rfl
        · rw [hget_old i hi hic]
      have hchild2 : ∀ i x, i < a.length →
          (getN a2 i).child x =
            (if i = cur ∧ x = c then some newId else (getN a i).child x) := by
        intro i x hi
        by_cases hic : i = cur
        · subst hic
          rw [hget_cur]
          show (if x = c then some newId else (getN a i).child x) = _
          by_cases hxc : x = c
          · simp [hxc]
          · simp [hxc]
        · rw [hget_old i hi hic]
          simp [hic]
      have hnewb : (getN a2 newId).b = path ++ [c] := by rw [hget_new]
      -- well-formedness of the extended arena
      have hw2 : Wf a2 := by
        refine ⟨by omega, ?_, ?_, ?_, ?_⟩
        · -- root path unchanged
          have h0 : (0 : Nat) < a.length := hw.nz
          rw [hb2 0 h0]
          exact hw.rootb
        · -- child_spec
          intro i x j hi hedge2
          by_cases hiN : i = newId
          · subst hiN
            rw [hget_new] at hedge2
            exact absurd hedge2 (by simp [hnn])
          · have hia : i < a.length := by omega
            rw [hchild2 i x hia] at hedge2
            by_cases hcase : i = cur ∧ x = c
            · rw [if_pos hcase] at hedge2
              injection hedge2 with hj
              subst hj
              have hnz := hw.nz
              rw [hcase.1, hcase.2]
              refine ⟨by omega, by omega, ?_⟩
              rw [hnewb, hb2 cur hcur, hb]
            · rw [if_neg hcase] at hedge2
              obtain ⟨hj, hj0, hjb⟩ := hw.child_spec i x j hia hedge2
              refine ⟨by omega, hj0, ?_⟩
              rw [hb2 j hj, hb2 i hia, hjb]
        · -- parent
          intro j hj0 hj
          by_cases hjN : j = newId
          · subst hjN
            refine ⟨cur, c, by omega, ?_⟩
            rw [hchild2 cur c hcur]
            simp
          · have hja : j < a.length := by omega
            obtain ⟨i, x, hi, hedge2⟩ := hw.parent j hj0 hja
            refine ⟨i, x, by omega, ?_⟩
            rw [hchild2 i x hi]
            have hne : ¬ (i = cur ∧ x = c) := by
              rintro ⟨rfl, rfl⟩
              rw [hedge] at hedge2
              exact Option.noConfusion hedge2
            rw [if_neg hne]
            exact hedge2
        · -- injectivity
          intro i j hi hj hbij
          by_cases hiN : i = newId
          · by_cases hjN : j = newId
            · rw [hiN, hjN]
            · exfalso
              have hja : j < a.length := by omega
              rw [hiN, hnewb, hb2 j hja] at hbij
              have hj0 : 0 < j := by
                rcases Nat.eq_zero_or_pos j with rfl | h
                · rw [hw.rootb] at hbij
                  exact absurd hbij.symm (by simp)
                · exact h
              obtain ⟨pj, cj, hpj, hpedge⟩ := hw.parent j hj0 hja
              have hpb := (hw.child_spec pj cj j hpj hpedge).2.2
              rw [hpb] at hbij
              obtain ⟨hpa, hcj⟩ := List.append_inj' hbij.symm rfl
              have hpcur : pj = cur := hw.inj pj cur hpj hcur (by rw [hpa, hb])
              rw [hpcur] at hpedge
              have hcc : cj = c := by simpa using hcj
              rw [hcc, hedge] at hpedge
              exact Option.noConfusion hpedge
          · by_cases hjN : j = newId
            · exfalso
              have hia : i < a.length := by omega
              rw [hjN, hnewb, hb2 i hia] at hbij
              have hi0 : 0 < i := by
                rcases Nat.eq_zero_or_pos i with rfl | h
                · rw [hw.rootb] at hbij
                  exact absurd hbij (by simp)
                · exact h
              obtain ⟨pi, ci, hpi, hpedge⟩ := hw.parent i hi0 hia
              have hpb := (hw.child_spec pi ci i hpi hpedge).2.2
              rw [hpb] at hbij
              obtain ⟨hpa, hci⟩ := List.append_inj' hbij rfl
              have hpcur : pi = cur := hw.inj pi cur hpi hcur (by rw [hpa, hb])
              rw [hpcur] at hpedge
              have hcc : ci = c := by simpa using hci
              rw [hcc, hedge] at hpedge
              exact Option.noConfusion hpedge
            · have hia : i < a.length := by omega
              have hja : j < a.length := by omega
              rw [hb2 i hia, hb2 j hja] at hbij
              exact hw.inj i j hia hja hbij
      have hext12 : Ext a a2 := by
        refine ⟨by omega, hb2, hout2, hidx2, ?_, ?_⟩
        · intro i x j hi hedge2
          rw [hchild2 i x hi]
          have hne : ¬ (i = cur ∧ x = c) := by
            rintro ⟨rfl, rfl⟩
            rw [hedge] at hedge2
            exact Option.noConfusion hedge2
          rw [if_neg hne]
          exact hedge2
        · intro i x j hi hedge2
          rw [hchild2 i x hi] at hedge2
          by_cases hcase : i = cur ∧ x = c
          · rw [if_pos hcase] at hedge2
            injection hedge2 with hj
            subst hj
            exact Or.inr (Nat.le_refl _)
          · rw [if_neg hcase] at hedge2
            exact Or.inl hedge2
      have hnew_lt : newId < a2.length := by omega
      have spec := ih a2 newId (path ++ [c]) hw2 hnew_lt hnewb
      refine ⟨spec.wf, hext12.trans spec.ext, spec.last_lt, ?_, ?_, ?_⟩
      · rw [spec.last_b]
        simp
      · intro i h1 h2
        by_cases hiN : i = newId
        · subst hiN
          refine ⟨?_, 1, Nat.le_refl _, by simp, ?_⟩
          · rw [spec.ext.out_eq _ hnew_lt, hget_new]
          · rw [spec.ext.b_eq _ hnew_lt, hnewb]
            simp
        · have hi2 : a2.length ≤ i := by omega
          obtain ⟨ho, k, hk1, hk2, hbk⟩ := spec.news i hi2 h2
          refine ⟨ho, k + 1, by omega, by simp; omega, ?_⟩
          rw [hbk, List.take_succ_cons]
          simp
      · intro k hk
        cases k with
        | zero =>
          refine ⟨cur, ?_, ?_⟩
          · have := spec.ext.len_le
            omega
          · rw [spec.ext.b_eq cur (by omega), hb2 cur hcur, hb]
            simp
        | succ k2 =>
          obtain ⟨i, hi, hbi⟩ := spec.pres k2 (by simpa using hk)
          refine ⟨i, hi, ?_⟩
          rw [hbi, List.take_succ_cons]
          simp

/-- The full representation invariant tying the arena to the dictionary
inserted so far: paths are exactly the trie paths, output flags mark
exactly the patterns, and indices are last-occurrence positions. -/
structure Rep (d : List (List Nat)) (a : Arena) : Prop where
  wf : Wf a
  paths_mem : ∀ i, i < a.length → inTrie d (getN a i).b
  paths_complete : ∀ bs, inTrie d bs → ∃ i, i < a.length ∧ (getN a i).b = bs
  out_spec : ∀ i, i < a.length → ((getN a i).output = true ↔ (getN a i).b ∈ d)
  idx_spec : ∀ i, i < a.length → (getN a i).output = true →
    IsLastOcc d (getN a i).b (getN a i).index

lemma inTrie_mono {done : List (List Nat)} {p bs : List Nat}
    (h : inTrie done bs) : inTrie (done ++ [p]) bs := by
  rcases h with rfl | ⟨q, hq, hpre⟩
  · exact inTrie_nil _
  · exact Or.inr ⟨q, by simp [hq], hpre⟩

lemma Rep_nil : Rep [] [rootNode] := by
  have hget0 : getN [rootNode] 0 = rootNode := rfl
  have hgetS : ∀ i, 0 < i → getN [rootNode] i = Node.empty := by
    intro i hi
    exact getN_default _ _ (by simpa using hi)
  have hlen : ([rootNode] : Arena).length = 1 := rfl
  have hchild : ∀ i c, (getN [rootNode] i).child c = none := by
    intro i c
    rcases Nat.eq_zero_or_pos i with rfl | hi
    · rfl
    · rw [hgetS i hi]
      rfl
  refine ⟨⟨by simp, rfl, ?_, ?_, ?_⟩, ?_, ?_, ?_, ?_⟩
  · intro i c j _ habs
    rw [hchild i c] at habs
    exact Option.noConfusion habs
  · intro j hj0 hj
    rw [hlen] at hj
    omega
  · intro i j hi hj _
    rw [hlen] at hi hj
    omega
  · intro i hi
    rw [hlen] at hi
    interval_cases i
    exact inTrie_nil _
  · intro bs hbs
    rcases hbs with rfl | ⟨q, hq, _⟩
    · exact ⟨0, by simp, rfl⟩
    · exact absurd hq (List.not_mem_nil q)
  · intro i hi
    rw [hlen] at hi
    interval_cases i
    rw [hget0]
    simp [rootNode, Node.empty]
  · intro i hi hout
    rw [hlen] at hi
    interval_cases i
    rw [hget0] at hout
    exact absurd hout (by simp [rootNode, Node.empty])

/-- Inserting one more pattern and marking its terminal node preserves
the representation invariant, for the extended dictionary. -/
lemma Rep_step {done : List (List Nat)} {a : Arena} (hr : Rep done a) (p : List Nat) :
    Rep (done ++ [p])
      (setN (insertFrom a 0 [] p).1 (insertFrom a 0 [] p).2
        (markOutput (getN (insertFrom a 0 [] p).1 (insertFrom a 0 [] p).2)
          done.length)) := by
  obtain ⟨hwf1, hext1, hlast_lt, hlast_b, hnews, hpres⟩ :=
    insertFrom_spec p a 0 [] hr.wf hr.wf.nz hr.wf.rootb
  set r1 := (insertFrom a 0 [] p).1 with hr1
  set last := (insertFrom a 0 [] p).2 with hlast
  set a3 := setN r1 last (markOutput (getN r1 last) done.length) with ha3
  have hLL : a.length ≤ r1.length := hext1.len_le
  have hlen3 : a3.length = r1.length := setN_length ..
  have hget3 : ∀ i, i < r1.length →
      getN a3 i = if i = last then markOutput (getN r1 last) done.length
        else getN r1 i := by
    intro i hi
    by_cases hil : i = last
    · rw [if_pos hil, ha3, hil, getN_set_self r1 last _ (hil ▸ hi)]
    · rw [if_neg hil, ha3, getN_set_ne r1 last _ i (fun h => hil h.symm)]
  have hb3 : ∀ i, i < r1.length → (getN a3 i).b = (getN r1 i).b := by
    intro i hi
    rw [hget3 i hi]
    split
    · subst ‹i = last›
      rfl
    · rfl
  have hchild3 : ∀ i, i < r1.length → (getN a3 i).child = (getN r1 i).child := by
    intro i hi
    rw [hget3 i hi]
    split
    · subst ‹i = last›
      rfl
    · rfl
  have hlastb : (getN r1 last).b = p := by
    rw [hlast_b]
    simp
  have hb_ne_p : ∀ i, i < r1.length → i ≠ last → (getN r1 i).b ≠ p := by
    intro i hi hne hbp
    exact hne (hwf1.inj i last hi hlast_lt (by rw [hbp, hlastb]))
  have hold_not_new : ∀ i, a.length ≤ i → i < r1.length →
      (getN r1 i).b ∉ done := by
    intro i h1 h2 hmem
    obtain ⟨i0, hi0, hbi0⟩ := hr.paths_complete (getN r1 i).b (inTrie_of_mem hmem)
    have hbi0r : (getN r1 i0).b = (getN r1 i).b := by
      rw [hext1.b_eq i0 hi0, hbi0]
    have := hwf1.inj i0 i (Nat.lt_of_lt_of_le hi0 hLL) h2 hbi0r
    omega
  have hwf3 : Wf a3 := by
    refine ⟨by have := hwf1.nz; omega, ?_, ?_, ?_, ?_⟩
    · rw [hb3 0 (by have := hwf1.nz; omega)]
      exact hwf1.rootb
    · intro i c j hi hedge
      rw [hlen3] at hi
      rw [hchild3 i hi] at hedge
      obtain ⟨hj, hj0, hjb⟩ := hwf1.child_spec i c j hi hedge
      refine ⟨by omega, hj0, by rw [hb3 j hj, hb3 i hi]; exact hjb⟩
    · intro j hj0 hj
      rw [hlen3] at hj
      obtain ⟨i, c, hi, hedge⟩ := hwf1.parent j hj0 hj
      exact ⟨i, c, by omega, by rw [hchild3 i hi]; exact hedge⟩
    · intro i j hi hj hbij
      rw [hlen3] at hi hj
      rw [hb3 i hi, hb3 j hj] at hbij
      exact hwf1.inj i j hi hj hbij
  refine ⟨hwf3, ?_, ?_, ?_, ?_⟩
  · -- paths_mem
    intro i hi
    rw [hlen3] at hi
    rw [hb3 i hi]
    by_cases hia : i < a.length
    · rw [hext1.b_eq i hia]
      exact inTrie_mono (hr.paths_mem i hia)
    · obtain ⟨_, k, _, hk2, hbk⟩ := hnews i (by omega) hi
      rw [hbk]
      exact Or.inr ⟨p, by simp, by simpa using ⟨p.drop k, List.take_append_drop k p⟩⟩
  · -- paths_complete
    intro bs hbs
    rcases hbs with rfl | ⟨q, hq, hpre⟩
    · exact ⟨0, by have := hwf3.nz; omega, hwf3.rootb⟩
    · rcases List.mem_append.mp hq with hq2 | hq2
      · obtain ⟨i, hi, hbi⟩ := hr.paths_complete bs (Or.inr ⟨q, hq2, hpre⟩)
        refine ⟨i, by omega, ?_⟩
        rw [hb3 i (by omega), hext1.b_eq i hi]
        exact hbi
      · have hqp : q = p := by simpa using hq2
        subst hqp
        have hbs_take : bs = q.take bs.length := by
          obtain ⟨t, ht⟩ := hpre
          rw [← ht]
          simp
        have hblen : bs.length ≤ q.length := by
          obtain ⟨t, ht⟩ := hpre
          rw [← ht]
          simp
        obtain ⟨i, hi, hbi⟩ := hpres bs.length hblen
        refine ⟨i, by omega, ?_⟩
        rw [hb3 i hi, hbi]
        simp only [List.nil_append]
        exact hbs_take.symm
  · -- out_spec
    intro i hi
    rw [hlen3] at hi
    rw [hget3 i hi]
    by_cases hil : i = last
    · rw [if_pos hil]
      simp [markOutput, hlastb]
    · rw [if_neg hil]
      by_cases hia : i < a.length
      · rw [show (getN r1 i).output = (getN a i).output from hext1.out_eq i hia,
          show (getN r1 i).b = (getN a i).b from hext1.b_eq i hia]
        rw [hr.out_spec i hia]
        constructor
        · intro h
          simp [h]
        · intro h
          rcases List.mem_append.mp h with h | h
          · exact h
          · exfalso
            have hbp : (getN r1 i).b = p := by
              rw [hext1.b_eq i hia]
              simpa using h
            exact hb_ne_p i hi hil hbp
      · obtain ⟨ho, k, hk1, hk2, hbk⟩ := hnews i (by omega) hi
        rw [ho]
        constructor
        · intro h
          exact absurd h.symm (by simp)
        · intro h
          exfalso
          rcases List.mem_append.mp h with h | h
          · exact hold_not_new i (by omega) hi h
          · exact hb_ne_p i hi hil (by simpa using h)
  · -- idx_spec
    intro i hi hout
    rw [hlen3] at hi
    rw [hget3 i hi] at hout ⊢
    by_cases hil : i = last
    · rw [if_pos hil] at hout ⊢
      refine ⟨?_, ?_⟩
      · show (done ++ [p])[done.length]? =
          some (markOutput (getN r1 last) done.length).b
        have hmb : (markOutput (getN r1 last) done.length).b = p := hlastb
        rw [hmb]
        exact List.getElem?_concat_length done p
      · intro j hj
        have hmi : (markOutput (getN r1 last) done.length).index = done.length := rfl
        rw [List.getElem?_eq_none (by simp; omega)]
        simp
    · rw [if_neg hil] at hout ⊢
      by_cases hia : i < a.length
      · rw [show (getN r1 i).output = (getN a i).output from hext1.out_eq i hia]
          at hout
        have hold := hr.idx_spec i hia hout
        have hidx_lt : (getN a i).index < done.length := by
          have h1 := hold.1
          by_contra hge
          rw [List.getElem?_eq_none (Nat.le_of_not_lt hge)] at h1
          exact Option.noConfusion h1
        rw [show (getN r1 i).b = (getN a i).b from hext1.b_eq i hia,
          show (getN r1 i).index = (getN a i).index from hext1.idx_eq i hia]
        refine ⟨?_, ?_⟩
        · rw [List.getElem?_append_left hidx_lt]
          exact hold.1
        · intro j hj
          by_cases hjd : j < done.length
          · rw [List.getElem?_append_left hjd]
            exact hold.2 j hj
          · by_cases hjp : j = done.length
            · subst hjp
              rw [List.getElem?_concat_length]
              intro habs
              have hbp : (getN a i).b = p := by
                injection habs with h
                exact h.symm
              have hrb : (getN r1 i).b = p := by
                rw [hext1.b_eq i hia, hbp]
              exact hb_ne_p i hi hil hrb
            · rw [List.getElem?_eq_none (by simp; omega)]
              simp
      · obtain ⟨ho, _⟩ := hnews i (by omega) hi
        rw [ho] at hout
        exact absurd hout.symm (by simp)

lemma insertList_rep :
    ∀ (rest done : List (List Nat)) (a : Arena), Rep done a →
      Rep (done ++ rest) (insertList a done.length rest) := by
  intro rest
  induction rest with
  | nil =>
    intro done a hr
    simpa using hr
  | cons p r ih =>
    intro done a hr
    rw [insertList]
    have h2 := ih (done ++ [p]) _ (Rep_step hr p)
    simp only [List.append_assoc, List.singleton_append, List.length_append,
      List.length_singleton] at h2
    exact h2

/-- The insertion phase builds a faithful representation of the whole
dictionary. -/
lemma Rep_insert (d : List (List Nat)) : Rep d (insertList [rootNode] 0 d) := by
  have h := insertList_rep d [] [rootNode] Rep_nil
  simpa using h

/-! ### findBlice characterisation -/

lemma findBliceFrom_sound {a : Arena} (w : Wf a) :
    ∀ (bs : List Nat) (cur i : Nat), cur < a.length →
      findBliceFrom a cur bs = some i →
      i < a.length ∧ (getN a i).b = (getN a cur).b ++ bs := by
  intro bs
  induction bs with
  | nil =>
    intro cur i hcur h
    injection h with h
    subst h
    exact ⟨hcur, by simp⟩
  | cons c rest ih =>
    intro cur i hcur h
    cases hedge : (getN a cur).child c with
    | none =>
      rw [findBliceFrom, hedge] at h
      exact Option.noConfusion h
    | some j =>
      rw [findBliceFrom, hedge] at h
      obtain ⟨hj, _, hjb⟩ := w.child_spec cur c j hcur hedge
      obtain ⟨hi, hib⟩ := ih j i hj h
      refine ⟨hi, ?_⟩
      rw [hib, hjb]
      simp

lemma findBliceFrom_append (a : Arena) :
    ∀ (xs ys : List Nat) (cur : Nat),
      findBliceFrom a cur (xs ++ ys) =
        (findBliceFrom a cur xs).bind (fun i => findBliceFrom a i ys) := by
  intro xs
  induction xs with
  | nil => intro ys cur; rfl
  | cons c rest ih =>
    intro ys cur
    rw [List.cons_append, findBliceFrom]
    cases hedge : (getN a cur).child c with
    | none =>
      rw [findBliceFrom, hedge]
      rfl
    | some j =>
      rw [findBliceFrom, hedge]
      exact ih ys j

lemma findBlice_complete {a : Arena} (w : Wf a) :
    ∀ (n i : Nat), i < a.length → (getN a i).b.length = n →
      findBlice a ((getN a i).b) = some i := by
  intro n
  induction n using Nat.strong_induction_on with
  | _ n ih =>
    intro i hi hbn
    rcases Nat.eq_zero_or_pos i with rfl | hi0
    · rw [w.rootb]
      rfl
    · obtain ⟨par, c, hpar, hedge⟩ := w.parent i hi0 hi
      obtain ⟨_, _, hib⟩ := w.child_spec par c i hpar hedge
      have hplen : (getN a par).b.length < n := by
        rw [hib] at hbn
        simp at hbn
        omega
      have hpar_find := ih _ hplen par hpar rfl
      rw [hib, findBlice, findBliceFrom_append]
      rw [findBlice] at hpar_find
      rw [hpar_find]
      show findBliceFrom a par [c] = some i
      rw [findBliceFrom, hedge]
      rfl

lemma findBlice_eq_some_iff {a : Arena} (w : Wf a) {bs : List Nat} {i : Nat} :
    findBlice a bs = some i ↔ (i < a.length ∧ (getN a i).b = bs) := by
  constructor
  · intro h
    obtain ⟨hi, hib⟩ := findBliceFrom_sound w bs 0 i w.nz h
    rw [w.rootb] at hib
    exact ⟨hi, by simpa using hib⟩
  · rintro ⟨hi, rfl⟩
    exact findBlice_complete w _ i hi rfl

/-- The node reached from the root along `bs`, with 0 (the root) as the
out-of-trie default. -/
def nodeOf (a : Arena) (bs : List Nat) : Nat := (findBlice a bs).getD 0

lemma nodeOf_nil (a : Arena) : nodeOf a [] = 0 := rfl

lemma findBlice_eq_none_iff {d : List (List Nat)} {a : Arena} (hr : Rep d a)
    {bs : List Nat} : findBlice a bs = none ↔ ¬ inTrie d bs := by
  constructor
  · intro h hin
    obtain ⟨i, hi, hib⟩ := hr.paths_complete bs hin
    rw [(findBlice_eq_some_iff hr.wf).mpr ⟨hi, hib⟩] at h
    exact Option.noConfusion h
  · intro hni
    cases hfb : findBlice a bs with
    | none => rfl
    | some i =>
      obtain ⟨hi, hib⟩ := (findBlice_eq_some_iff hr.wf).mp hfb
      exact absurd (hib ▸ hr.paths_mem i hi) hni

lemma nodeOf_spec {d : List (List Nat)} {a : Arena} (hr : Rep d a)
    {bs : List Nat} (h : inTrie d bs) :
    nodeOf a bs < a.length ∧ (getN a (nodeOf a bs)).b = bs := by
  cases hfb : findBlice a bs with
  | none => exact absurd h ((findBlice_eq_none_iff hr).mp hfb)
  | some i =>
    obtain ⟨hi, hib⟩ := (findBlice_eq_some_iff hr.wf).mp hfb
    rw [nodeOf, hfb]
    exact ⟨hi, hib⟩

lemma nodeOf_b {a : Arena} (w : Wf a) (i : Nat) (hi : i < a.length) :
    nodeOf a ((getN a i).b) = i := by
  rw [nodeOf, findBlice_complete w _ i hi rfl]
  rfl

/-! ### Transfer of the representation through the link phases -/

/-- The arena after the insertion phase. -/
def aI (d : List (List Nat)) : Arena := insertList [rootNode] 0 d

/-- The arena after the fail/suffix link phase. -/
def aL (d : List (List Nat)) : Arena := setLinks (aI d)

lemma buildTrie_eq (d : List (List Nat)) : buildTrie d = setFailsPass (aL d) := rfl

lemma setLinks_b (a : Arena) (i : Nat) : (getN (setLinks a) i).b = (getN a i).b := by
  by_cases h : i < a.length
  · rw [getN_setLinks a i h]
    split
    · rfl
    · rfl
  · rw [getN_default _ i (by rw [setLinks_length]; omega), getN_default a i (by omega)]

lemma setLinks_child (a : Arena) (i : Nat) :
    (getN (setLinks a) i).child = (getN a i).child := by
  by_cases h : i < a.length
  · rw [getN_setLinks a i h]
    split
    · rfl
    · rfl
  · rw [getN_default _ i (by rw [setLinks_length]; omega), getN_default a i (by omega)]

lemma setLinks_output (a : Arena) (i : Nat) :
    (getN (setLinks a) i).output = (getN a i).output := by
  by_cases h : i < a.length
  · rw [getN_setLinks a i h]
    split
    · rfl
    · rfl
  · rw [getN_default _ i (by rw [setLinks_length]; omega), getN_default a i (by omega)]

lemma setLinks_index (a : Arena) (i : Nat) :
    (getN (setLinks a) i).index = (getN a i).index := by
  by_cases h : i < a.length
  · rw [getN_setLinks a i h]
    split
    · rfl
    · rfl
  · rw [getN_default _ i (by rw [setLinks_length]; omega), getN_default a i (by omega)]

lemma setFailsPass_b (a : Arena) (i : Nat) :
    (getN (setFailsPass a) i).b = (getN a i).b := by
  by_cases h : i < a.length
  · rw [getN_setFailsPass a i h]
  · rw [getN_default _ i (by rw [setFailsPass_length]; omega), getN_default a i (by omega)]

lemma setFailsPass_child (a : Arena) (i : Nat) :
    (getN (setFailsPass a) i).child = (getN a i).child := by
  by_cases h : i < a.length
  · rw [getN_setFailsPass a i h]
  · rw [getN_default _ i (by rw [setFailsPass_length]; omega), getN_default a i (by omega)]

lemma setFailsPass_output (a : Arena) (i : Nat) :
    (getN (setFailsPass a) i).output = (getN a i).output := by
  by_cases h : i < a.length
  · rw [getN_setFailsPass a i h]
  · rw [getN_default _ i (by rw [setFailsPass_length]; omega), getN_default a i (by omega)]

lemma setFailsPass_index (a : Arena) (i : Nat) :
    (getN (setFailsPass a) i).index = (getN a i).index := by
  by_cases h : i < a.length
  · rw [getN_setFailsPass a i h]
  · rw [getN_default _ i (by rw [setFailsPass_length]; omega), getN_default a i (by omega)]

lemma setFailsPass_fail (a : Arena) (i : Nat) :
    (getN (setFailsPass a) i).fail = (getN a i).fail := by
  by_cases h : i < a.length
  · rw [getN_setFailsPass a i h]
  · rw [getN_default _ i (by rw [setFailsPass_length]; omega), getN_default a i (by omega)]

lemma setFailsPass_suffix (a : Arena) (i : Nat) :
    (getN (setFailsPass a) i).suffix = (getN a i).suffix := by
  by_cases h : i < a.length
  · rw [getN_setFailsPass a i h]
  · rw [getN_default _ i (by rw [setFailsPass_length]; omega), getN_default a i (by omega)]

/-- The representation invariant only mentions lengths, paths, edges,
output flags and indices, so it survives any pass that preserves them. -/
lemma Rep_congr {d : List (List Nat)} {a a2 : Arena} (hr : Rep d a)
    (hlen : a2.length = a.length)
    (hb : ∀ i, (getN a2 i).b = (getN a i).b)
    (hc : ∀ i, (getN a2 i).child = (getN a i).child)
    (ho : ∀ i, (getN a2 i).output = (getN a i).output)
    (hx : ∀ i, (getN a2 i).index = (getN a i).index) : Rep d a2 := by
  have hnz := hr.wf.nz
  refine ⟨⟨by omega, by rw [hb 0]; exact hr.wf.rootb, ?_, ?_, ?_⟩, ?_, ?_, ?_, ?_⟩
  · intro i c j hi hedge
    rw [hc i] at hedge
    obtain ⟨hj, hj0, hjb⟩ := hr.wf.child_spec i c j (by omega) hedge
    exact ⟨by omega, hj0, by rw [hb j, hb i]; exact hjb⟩
  · intro j hj0 hj
    obtain ⟨i, c, hi, hedge⟩ := hr.wf.parent j hj0 (by omega)
    exact ⟨i, c, by omega, by rw [hc i]; exact hedge⟩
  · intro i j hi hj hbij
    rw [hb i, hb j] at hbij
    exact hr.wf.inj i j (by omega) (by omega) hbij
  · intro i hi
    rw [hb i]
    exact hr.paths_mem i (by omega)
  · intro bs hbs
    obtain ⟨i, hi, hbi⟩ := hr.paths_complete bs hbs
    exact ⟨i, by omega, by rw [hb i]; exact hbi⟩
  · intro i hi
    rw [ho i, hb i]
    exact hr.out_spec i (by omega)
  · intro i hi hout
    rw [ho i] at hout
    rw [hb i, hx i]
    exact hr.idx_spec i (by omega) hout

lemma Rep_aL (d : List (List Nat)) : Rep d (aL d) :=
  Rep_congr (Rep_insert d) (setLinks_length _) (setLinks_b _) (setLinks_child _)
    (setLinks_output _) (setLinks_index _)

lemma Rep_build (d : List (List Nat)) : Rep d (buildTrie d) :=
  Rep_congr (Rep_aL d) (setFailsPass_length _) (setFailsPass_b _)
    (setFailsPass_child _) (setFailsPass_output _) (setFailsPass_index _)

lemma build_length (d : List (List Nat)) :
    (buildTrie d).length = (aL d).length := setFailsPass_length _

lemma aL_length (d : List (List Nat)) : (aL d).length = (aI d).length :=
  setLinks_length _

/-- findBlice only reads child edges, so it agrees on any two arenas
with the same edges. -/
lemma findBliceFrom_congr {a a2 : Arena} (hlen : a2.length = a.length)
    (hc : ∀ i, (getN a2 i).child = (getN a i).child) :
    ∀ (bs : List Nat) (cur : Nat),
      findBliceFrom a2 cur bs = findBliceFrom a cur bs := by
  intro bs
  induction bs with
  | nil => intro cur; rfl
  | cons c rest ih =>
    intro cur
    rw [findBliceFrom, findBliceFrom, hc cur]
    cases (getN a cur).child c with
    | none => rfl
    | some j => exact ih j

lemma findBlice_build (d : List (List Nat)) (bs : List Nat) :
    findBlice (buildTrie d) bs = findBlice (aI d) bs := by
  rw [findBlice, findBlice]
  exact findBliceFrom_congr
    (by rw [build_length, aL_length])
    (fun i => by rw [buildTrie_eq, setFailsPass_child, aL, setLinks_child]) bs 0

lemma findBlice_aL (d : List (List Nat)) (bs : List Nat) :
    findBlice (aL d) bs = findBlice (aI d) bs := by
  rw [findBlice, findBlice]
  exact findBliceFrom_congr (aL_length d) (fun i => by rw [aL, setLinks_child]) bs 0

lemma nodeOf_build (d : List (List Nat)) (bs : List Nat) :
    nodeOf (buildTrie d) bs = nodeOf (aI d) bs := by
  rw [nodeOf, nodeOf, findBlice_build]

lemma nodeOf_aL (d : List (List Nat)) (bs : List Nat) :
    nodeOf (aL d) bs = nodeOf (aI d) bs := by
  rw [nodeOf, nodeOf, findBlice_aL]

/-- The fail-link loop lands on the node of the longest trie-path tail. -/
lemma failScan_eq {d : List (List Nat)} {a : Arena} (hr : Rep d a) :
    ∀ l, failScan a l = nodeOf a (longestTrieSuffix d l) := by
  intro l
  induction l with
  | nil => rw [failScan, longestTrieSuffix, nodeOf_nil]
  | cons c rest ih =>
    rw [failScan, longestTrieSuffix]
    cases hfb : findBlice a (c :: rest) with
    | some j =>
      obtain ⟨hj, hjb⟩ := (findBlice_eq_some_iff hr.wf).mp hfb
      have hin : inTrie d (c :: rest) := hjb ▸ hr.paths_mem j hj
      rw [if_pos hin, nodeOf, hfb]
      rfl
    | none =>
      have hnin := (findBlice_eq_none_iff hr).mp hfb
      rw [if_neg hnin]
      exact ih

/-- The suffix-link loop lands on the node of the longest pattern tail. -/
lemma suffixScan_eq {d : List (List Nat)} {a : Arena} (hr : Rep d a) :
    ∀ l, suffixScan a l = nodeOf a (longestDictSuffix d l) := by
  intro l
  induction l with
  | nil => rw [suffixScan, longestDictSuffix, nodeOf_nil]
  | cons c rest ih =>
    rw [longestDictSuffix]
    cases hfb : findBlice a (c :: rest) with
    | some j =>
      obtain ⟨hj, hjb⟩ := (findBlice_eq_some_iff hr.wf).mp hfb
      have hmem_iff : (getN a j).output = true ↔ (c :: rest) ∈ d := by
        rw [hr.out_spec j hj, hjb]
      by_cases hmem : (c :: rest) ∈ d
      · simp only [suffixScan, hfb]
        rw [if_pos (hmem_iff.mpr hmem), if_pos hmem, nodeOf, hfb]
        rfl
      · simp only [suffixScan, hfb]
        rw [if_neg (fun h => hmem (hmem_iff.mp h)), if_neg hmem]
        exact ih
    | none =>
      simp only [suffixScan, hfb]
      have hnin := (findBlice_eq_none_iff hr).mp hfb
      have hmem : ¬ (c :: rest) ∈ d := fun h => hnin (inTrie_of_mem h)
      rw [if_neg hmem]
      exact ih

/-- Fail link of a non-root node of the built automaton: the node of
the longest proper suffix of its path that is a trie path. -/
lemma build_fail {d : List (List Nat)} {i : Nat} (h0 : 0 < i)
    (hi : i < (buildTrie d).length) :
    (getN (buildTrie d) i).fail =
      nodeOf (buildTrie d) (longestTrieSuffix d (getN (buildTrie d) i).b.tail) := by
  have hiL : i < (aL d).length := by rw [← build_length]; exact hi
  have hiI : i < (aI d).length := by rw [← aL_length]; exact hiL
  have hbne : (getN (aI d) i).b ≠ [] := (Rep_insert d).wf.b_ne_nil h0 hiI
  have h1 : (getN (buildTrie d) i).fail = (getN (aL d) i).fail := by
    rw [buildTrie_eq, setFailsPass_fail]
  have h2 : getN (aL d) i =
      { getN (aI d) i with fail := failScan (aI d) (getN (aI d) i).b.tail,
                           suffix := suffixScan (aI d) (getN (aI d) i).b.tail } := by
    rw [aL]
    rw [getN_setLinks _ i hiI, if_neg hbne]
  have hb : (getN (buildTrie d) i).b = (getN (aI d) i).b := by
    rw [buildTrie_eq, setFailsPass_b, aL, setLinks_b]
  rw [h1, h2, hb, nodeOf_build]
  exact failScan_eq (Rep_insert d) _

/-- Suffix link of a non-root node of the built automaton: the node of
the longest proper suffix of its path that is a pattern. -/
lemma build_suffix {d : List (List Nat)} {i : Nat} (h0 : 0 < i)
    (hi : i < (buildTrie d).length) :
    (getN (buildTrie d) i).suffix =
      nodeOf (buildTrie d) (longestDictSuffix d (getN (buildTrie d) i).b.tail) := by
  have hiL : i < (aL d).length := by rw [← build_length]; exact hi
  have hiI : i < (aI d).length := by rw [← aL_length]; exact hiL
  have hbne : (getN (aI d) i).b ≠ [] := (Rep_insert d).wf.b_ne_nil h0 hiI
  have h1 : (getN (buildTrie d) i).suffix = (getN (aL d) i).suffix := by
    rw [buildTrie_eq, setFailsPass_suffix]
  have h2 : getN (aL d) i =
      { getN (aI d) i with fail := failScan (aI d) (getN (aI d) i).b.tail,
                           suffix := suffixScan (aI d) (getN (aI d) i).b.tail } := by
    rw [aL]
    rw [getN_setLinks _ i hiI, if_neg hbne]
  have hb : (getN (buildTrie d) i).b = (getN (aI d) i).b := by
    rw [buildTrie_eq, setFailsPass_b, aL, setLinks_b]
  rw [h1, h2, hb, nodeOf_build]
  exact suffixScan_eq (Rep_insert d) _

/-- Any node's path is shorter than the arena: all its prefixes are
distinct nodes too. -/
lemma path_len_lt {d : List (List Nat)} {a : Arena} (hr : Rep d a) {i : Nat}
    (hi : i < a.length) : (getN a i).b.length < a.length := by
  set bs := (getN a i).b with hbs
  have hmem : ∀ k : Fin (bs.length + 1), nodeOf a (bs.take k) < a.length := by
    intro k
    refine (nodeOf_spec hr ?_).1
    exact inTrie_of_pre ⟨bs.drop k, List.take_append_drop k bs⟩
      (hr.paths_mem i hi)
  have hinj : Function.Injective
      (fun k : Fin (bs.length + 1) => (⟨nodeOf a (bs.take k), hmem k⟩ : Fin a.length)) := by
    intro k1 k2 h
    have hb1 : (getN a (nodeOf a (bs.take k1))).b = bs.take k1 :=
      (nodeOf_spec hr (inTrie_of_pre ⟨bs.drop k1, List.take_append_drop k1 bs⟩
        (hr.paths_mem i hi))).2
    have hb2 : (getN a (nodeOf a (bs.take k2))).b = bs.take k2 :=
      (nodeOf_spec hr (inTrie_of_pre ⟨bs.drop k2, List.take_append_drop k2 bs⟩
        (hr.paths_mem i hi))).2
    have heq : nodeOf a (bs.take k1) = nodeOf a (bs.take k2) := by
      have := congrArg Fin.val h
      simpa using this
    have htake : bs.take k1 = bs.take k2 := by
      rw [← hb1, ← hb2, heq]
    have hlen1 : (bs.take (k1 : Nat)).length = k1 := by
      rw [List.length_take]
      have := k1.isLt
      omega
    have hlen2 : (bs.take (k2 : Nat)).length = k2 := by
      rw [List.length_take]
      have := k2.isLt
      omega
    apply Fin.ext
    rw [← hlen1, ← hlen2, htake]
  have hcard := Fintype.card_le_of_injective _ hinj
  simpa using hcard

/-! ### Claims C6, C7, C8: the link structure of the built automaton -/

/-- C6.  After construction, the fail link of every non-root node is the
node representing the longest proper suffix of its path that is present
in the trie (`longestTrieSuffix` over the path's tails, which defaults
to the empty path, i.e. the root, when no nonempty proper suffix is a
trie path); in particular depth-1 nodes always fail to the root. -/
theorem C6_failLink_spec (d : List (List Nat)) (i : Nat) (h0 : 0 < i)
    (hi : i < (buildTrie d).length) :
    (getN (buildTrie d) i).fail =
        nodeOf (buildTrie d)
          (longestTrieSuffix d (getN (buildTrie d) i).b.tail) ∧
      ((getN (buildTrie d) i).b.length = 1 → (getN (buildTrie d) i).fail = 0) := by
  refine ⟨build_fail h0 hi, ?_⟩
  intro hlen1
  obtain ⟨x, hx⟩ := List.length_eq_one.mp hlen1
  rw [build_fail h0 hi, hx]
  rfl

/-- C6, witness: in the automaton for `{"ab", "b"}`, the node for "ab"
(id 2) fails to the node of its longest proper trie suffix ("b"). -/
theorem C6_witness :
    (getN (buildTrie [[97, 98], [98]]) 2).fail =
        nodeOf (buildTrie [[97, 98], [98]])
          (longestTrieSuffix [[97, 98], [98]]
            (getN (buildTrie [[97, 98], [98]]) 2).b.tail) ∧
      ((getN (buildTrie [[97, 98], [98]]) 2).b.length = 1 →
        (getN (buildTrie [[97, 98], [98]]) 2).fail = 0) :=
  C6_failLink_spec [[97, 98], [98]] 2 (by decide) (by decide)

/-- C7.  After construction, the suffix (output) link of every non-root
node is the node representing the longest proper suffix of its path that
is a dictionary pattern, defaulting to the root when no nonempty proper
suffix is a pattern (and an empty pattern, which makes the root an
output node, is represented by the root itself, the same default). -/
theorem C7_suffixLink_spec (d : List (List Nat)) (i : Nat) (h0 : 0 < i)
    (hi : i < (buildTrie d).length) :
    (getN (buildTrie d) i).suffix =
      nodeOf (buildTrie d)
        (longestDictSuffix d (getN (buildTrie d) i).b.tail) :=
  build_suffix h0 hi

/-- C7, witness: in the automaton for `{"ab", "b"}`, the suffix link of
the node for "ab" is the output node for "b". -/
theorem C7_witness :
    (getN (buildTrie [[97, 98], [98]]) 2).suffix =
      nodeOf (buildTrie [[97, 98], [98]])
        (longestDictSuffix [[97, 98], [98]]
          (getN (buildTrie [[97, 98], [98]]) 2).b.tail) :=
  C7_suffixLink_spec [[97, 98], [98]] 2 (by decide) (by decide)

/-- Iterating the suffix link. -/
def suffixIter (a : Arena) : Nat → Nat → Nat
  | 0, i => i
  | k + 1, i => suffixIter a k ((getN a i).suffix)

lemma Rep_aI (d : List (List Nat)) : Rep d (aI d) := Rep_insert d

lemma aI_suffix_zero (d : List (List Nat)) :
    AllN (fun n => n.suffix = 0) (aI d) := by
  have h0 : AllN (fun n => n.suffix = 0) [rootNode] := by
    intro i
    match i with
    | 0 => rfl
    | i + 1 => rw [getN_default _ _ (by simp)]; rfl
  exact AllN_insertList (P := fun n => n.suffix = 0) (fun n c j h => h)
    (fun bs => rfl) (fun n i h => h) d [rootNode] 0 h0

lemma build_root_suffix (d : List (List Nat)) :
    (getN (buildTrie d) 0).suffix = 0 := by
  rw [buildTrie_eq, setFailsPass_suffix]
  have h0 : (0 : Nat) < (aI d).length := (Rep_aI d).wf.nz
  have hrootb : (getN (aI d) 0).b = [] := (Rep_aI d).wf.rootb
  rw [aL, getN_setLinks _ 0 h0, if_pos hrootb]
  exact aI_suffix_zero d 0

lemma suffixIter_root {a : Arena} (h : (getN a 0).suffix = 0) :
    ∀ k, suffixIter a k 0 = 0 := by
  intro k
  induction k with
  | zero => rfl
  | succ n ih => rw [suffixIter, h]; exact ih

/-- The suffix link strictly shortens paths (and stays in range). -/
lemma build_suffix_lt {d : List (List Nat)} {i : Nat} (h0 : 0 < i)
    (hi : i < (buildTrie d).length) :
    (getN (buildTrie d) i).suffix < (buildTrie d).length ∧
      (getN (buildTrie d) (getN (buildTrie d) i).suffix).b.length <
        (getN (buildTrie d) i).b.length := by
  have hbne : (getN (buildTrie d) i).b ≠ [] := (Rep_build d).wf.b_ne_nil h0 hi
  rw [build_suffix h0 hi]
  cases hlds : longestDictSuffix d (getN (buildTrie d) i).b.tail with
  | nil =>
    rw [nodeOf_nil]
    refine ⟨(Rep_build d).wf.nz, ?_⟩
    rw [(Rep_build d).wf.rootb]
    simp only [List.length_nil]
    exact List.length_pos.mpr hbne
  | cons x rest =>
    have hmem : (x :: rest) ∈ d := by
      rw [← hlds]
      exact lds_mem d _ (by rw [hlds]; simp)
    obtain ⟨hlt, hb⟩ := nodeOf_spec (Rep_build d) (inTrie_of_mem hmem)
    refine ⟨hlt, ?_⟩
    rw [hb]
    have hsuf : (x :: rest) <:+ (getN (buildTrie d) i).b.tail := by
      rw [← hlds]
      exact lds_suffix d _
    have hlen := suffix_length_le hsuf
    cases hbc : (getN (buildTrie d) i).b with
    | nil => exact absurd hbc hbne
    | cons y ys =>
      rw [hbc] at hlen
      simp at hlen ⊢
      omega

lemma suffixIter_reaches (d : List (List Nat)) :
    ∀ (n i : Nat), i < (buildTrie d).length →
      (getN (buildTrie d) i).b.length ≤ n →
      suffixIter (buildTrie d) n i = 0 := by
  intro n
  induction n with
  | zero =>
    intro i hi hb
    have hb0 : (getN (buildTrie d) i).b = [] :=
      List.eq_nil_of_length_eq_zero (by omega)
    have := (Rep_build d).wf.eq_zero_of_b_nil hi hb0
    rw [this]
    rfl
  | succ n ih =>
    intro i hi hb
    rcases Nat.eq_zero_or_pos i with rfl | h0
    · exact suffixIter_root (build_root_suffix d) (n + 1)
    · rw [suffixIter]
      obtain ⟨hlt, hdec⟩ := build_suffix_lt h0 hi
      exact ih _ hlt (by omega)

/-- C8.  Suffix links never form a cycle: from any node, following the
suffix link as many times as the node's path length (in particular,
finitely many times) reaches the root, so the suffix-chain reporting
walk of `Match` always terminates. -/
theorem C8_suffix_reaches_root (d : List (List Nat)) (i : Nat)
    (hi : i < (buildTrie d).length) :
    suffixIter (buildTrie d) ((getN (buildTrie d) i).b.length) i = 0 :=
  suffixIter_reaches d _ i hi (Nat.le_refl _)

/-- C8, witness: in the automaton for `{"ab", "b"}`, iterating the
suffix link twice from the node for "ab" lands on the root. -/
theorem C8_witness :
    suffixIter (buildTrie [[97, 98], [98]])
      ((getN (buildTrie [[97, 98], [98]]) 2).b.length) 2 = 0 :=
  C8_suffix_reaches_root [[97, 98], [98]] 2 (by decide)

/-! ### The fails table: characterising the chase -/

lemma tail_suffix (l : List Nat) : l.tail <:+ l := by
  cases l with
  | nil => exact List.suffix_rfl
  | cons x rest => exact ⟨[x], rfl⟩

lemma child_some_nodeOf {d : List (List Nat)} {a : Arena} (hr : Rep d a)
    {i c j : Nat} (hi : i < a.length) (h : (getN a i).child c = some j) :
    j = nodeOf a ((getN a i).b ++ [c]) ∧ inTrie d ((getN a i).b ++ [c]) := by
  obtain ⟨hj, hj0, hjb⟩ := hr.wf.child_spec i c j hi h
  have hn := nodeOf_b hr.wf j hj
  rw [hjb] at hn
  exact ⟨hn.symm, hjb ▸ hr.paths_mem j hj⟩

lemma child_exists_of_inTrie {d : List (List Nat)} {a : Arena} (hr : Rep d a)
    {i c : Nat} (hi : i < a.length) (h : inTrie d ((getN a i).b ++ [c])) :
    (getN a i).child c = some (nodeOf a ((getN a i).b ++ [c])) := by
  obtain ⟨hjlt, hjb⟩ := nodeOf_spec hr h
  set j := nodeOf a ((getN a i).b ++ [c]) with hj
  have hj0 : 0 < j := by
    rcases Nat.eq_zero_or_pos j with hz | h1
    · exfalso
      rw [hz, hr.wf.rootb] at hjb
      exact absurd hjb.symm (by simp)
    · exact h1
  obtain ⟨p, c2, hp, hpedge⟩ := hr.wf.parent j hj0 hjlt
  have hpb := (hr.wf.child_spec p c2 j hp hpedge).2.2
  rw [hjb] at hpb
  obtain ⟨hpa, hc2⟩ := List.append_inj' hpb.symm rfl
  have hpi : p = i := hr.wf.inj p i hp hi hpa
  have hcc : c2 = c := by simpa using hc2
  rw [← hpi, ← hcc]
  exact hpedge

lemma child_none_not_inTrie {d : List (List Nat)} {a : Arena} (hr : Rep d a)
    {i c : Nat} (hi : i < a.length) (h : (getN a i).child c = none) :
    ¬ inTrie d ((getN a i).b ++ [c]) := by
  intro hin
  rw [child_exists_of_inTrie hr hi hin] at h
  exact Option.noConfusion h

/-- Fail link on the link-phase arena (same fact as `build_fail`). -/
lemma aL_fail {d : List (List Nat)} {i : Nat} (h0 : 0 < i)
    (hi : i < (aL d).length) :
    (getN (aL d) i).fail =
      nodeOf (aL d) (longestTrieSuffix d (getN (aL d) i).b.tail) := by
  have hA : i < (buildTrie d).length := by rw [build_length]; exact hi
  have h1 : (getN (aL d) i).fail = (getN (buildTrie d) i).fail := by
    rw [buildTrie_eq, setFailsPass_fail]
  have hb : (getN (buildTrie d) i).b = (getN (aL d) i).b := by
    rw [buildTrie_eq, setFailsPass_b]
  rw [h1, build_fail h0 hA, hb, nodeOf_build, nodeOf_aL]

/-- The chase of the third build phase lands on the node of
`chaseTarget`: the longest suffix of the node's path that can be
extended by `c` inside the trie. -/
lemma chaseFails_eq {d : List (List Nat)} :
    ∀ (n i c : Nat), i < (aL d).length → (getN (aL d) i).b.length < n →
      ∀ fuel, n ≤ fuel →
        chaseFails (aL d) fuel i c =
          nodeOf (aL d) (chaseTarget d c (getN (aL d) i).b) := by
  intro n
  induction n using Nat.strong_induction_on with
  | _ n ih =>
    intro i c hi hlen fuel hfuel
    cases fuel with
    | zero => omega
    | succ f =>
      rw [chaseFails]
      by_cases hi0 : i = 0
      · subst hi0
        rw [if_pos rfl]
        have hb0 : (getN (aL d) 0).b = [] := (Rep_aL d).wf.rootb
        rw [hb0]
        rfl
      · rw [if_neg hi0]
        have h0 : 0 < i := Nat.pos_of_ne_zero hi0
        have hbne : (getN (aL d) i).b ≠ [] := (Rep_aL d).wf.b_ne_nil h0 hi
        cases hedge : (getN (aL d) i).child c with
        | some j =>
          have hin := (child_some_nodeOf (Rep_aL d) hi hedge).2
          have hct : chaseTarget d c (getN (aL d) i).b = (getN (aL d) i).b := by
            cases hbc : (getN (aL d) i).b with
            | nil => exact absurd hbc hbne
            | cons x rest =>
              rw [chaseTarget, if_pos (by rw [← hbc]; exact hin)]
          rw [hct, nodeOf_b (Rep_aL d).wf i hi]
        | none =>
          have hnin := child_none_not_inTrie (Rep_aL d) hi hedge
          have hfail := aL_fail h0 hi
          set t := longestTrieSuffix d (getN (aL d) i).b.tail with ht
          have hint : inTrie d t := lts_inTrie d _
          obtain ⟨hflt, hfb⟩ := nodeOf_spec (Rep_aL d) hint
          have htlen : t.length ≤ (getN (aL d) i).b.tail.length :=
            suffix_length_le (lts_suffix d _)
          have htail_len : (getN (aL d) i).b.tail.length + 1 =
              (getN (aL d) i).b.length := by
            cases hbc : (getN (aL d) i).b with
            | nil => exact absurd hbc hbne
            | cons x rest => simp
          have hrec := ih (n - 1) (by omega) (nodeOf (aL d) t) c hflt
            (by rw [hfb]; omega) f (by omega)
          rw [hfail, hrec, hfb]
          have hcteq : chaseTarget d c t = chaseTarget d c (getN (aL d) i).b := by
            apply ct_congr
            intro u hune
            constructor
            · rintro ⟨hsuf, hin⟩
              exact ⟨(hsuf.trans (lts_suffix d _)).trans
                (tail_suffix (getN (aL d) i).b), hin⟩
            · rintro ⟨hsuf, hin⟩
              have hub : u ≠ (getN (aL d) i).b := by
                rintro rfl
                exact hnin hin
              have htail : u <:+ (getN (aL d) i).b.tail := by
                cases hbc : (getN (aL d) i).b with
                | nil => exact absurd hbc hbne
                | cons x rest =>
                  rw [hbc] at hsuf hub
                  rcases List.suffix_cons_iff.mp hsuf with rfl | hr2
                  · exact absurd rfl hub
                  · exact hr2
              have huin : inTrie d u :=
                inTrie_of_pre (List.prefix_append u [c]) hin
              exact ⟨lts_max d _ u htail huin, hin⟩
          rw [hcteq]

/-- The fails table of the built automaton: `fails[c]` is the node of
`chaseTarget d c` of the node's path. -/
lemma build_fails {d : List (List Nat)} {i : Nat} (c : Nat)
    (hi : i < (buildTrie d).length) :
    (getN (buildTrie d) i).fails c =
      nodeOf (buildTrie d) (chaseTarget d c (getN (buildTrie d) i).b) := by
  have hiL : i < (aL d).length := by rw [← build_length]; exact hi
  have hb : (getN (buildTrie d) i).b = (getN (aL d) i).b := by
    rw [buildTrie_eq, setFailsPass_b]
  have hfld : (getN (buildTrie d) i).fails =
      fun c => chaseFails (aL d) (aL d).length i c := by
    rw [buildTrie_eq, getN_setFailsPass _ i hiL]
  rw [hfld, hb, nodeOf_build, ← nodeOf_aL]
  exact chaseFails_eq ((getN (aL d) i).b.length + 1) i c hiL (by omega)
    (aL d).length (path_len_lt (Rep_aL d) hiL)

/-! ### The scan transition: one byte of `Match` -/

/-- The automaton transition in trie terms: the new state after byte `c`
from state `bs` is `chaseTarget` extended by `c` when that is a trie
path, else the root. -/
lemma delta_eq_ct (d : List (List Nat)) (bs : List Nat) (c : Nat) :
    longestTrieSuffix d (bs ++ [c]) =
      (if inTrie d (chaseTarget d c bs ++ [c]) then chaseTarget d c bs ++ [c]
       else []) := by
  split
  · rename_i hin
    have h1 : chaseTarget d c bs ++ [c] <:+ longestTrieSuffix d (bs ++ [c]) :=
      lts_max d _ _ (suffix_snoc_mono c (ct_suffix d c bs)) hin
    have hne : longestTrieSuffix d (bs ++ [c]) ≠ [] := by
      intro he
      rw [he] at h1
      have := List.suffix_nil.mp h1
      exact absurd this (by simp)
    obtain ⟨t2, ht2eq, ht2⟩ := suffix_snoc_inv (lts_suffix d (bs ++ [c])) hne
    have ht2in : inTrie d (t2 ++ [c]) := ht2eq ▸ lts_inTrie d (bs ++ [c])
    have h2 : t2 <:+ chaseTarget d c bs := ct_max d c bs t2 ht2 ht2in
    have h3 : longestTrieSuffix d (bs ++ [c]) <:+ chaseTarget d c bs ++ [c] := by
      rw [ht2eq]
      exact suffix_snoc_mono c h2
    exact eq_of_mutual_suffix h3 h1
  · rename_i hnin
    by_contra hne
    obtain ⟨t2, ht2eq, ht2⟩ := suffix_snoc_inv (lts_suffix d (bs ++ [c])) hne
    have ht2in : inTrie d (t2 ++ [c]) := ht2eq ▸ lts_inTrie d (bs ++ [c])
    have h2 : t2 <:+ chaseTarget d c bs := ct_max d c bs t2 ht2 ht2in
    rcases List.eq_nil_or_concat (chaseTarget d c bs) with hctnil | _
    · rw [hctnil] at h2
      have ht2nil := List.suffix_nil.mp h2
      rw [ht2nil] at ht2in
      rw [hctnil] at hnin
      exact hnin (by simpa using ht2in)
    · rename_i hcc
      obtain ⟨t, x, hctx⟩ := hcc
      exact hnin (ct_inTrie d c bs (by rw [hctx]; simp))

/-- When the transition target is empty, the scanner's fail adjustment
lands on the root and even the root has no edge for `c`. -/
lemma step_nav_none {d : List (List Nat)} {a : Arena}
    (hs : sameStrip a (buildTrie d)) {i c : Nat} (hi : i < (buildTrie d).length)
    (hδ : longestTrieSuffix d ((getN (buildTrie d) i).b ++ [c]) = []) :
    (if i ≠ 0 ∧ (getN a i).child c = none then (getN a i).fails c else i) = 0 ∧
      (getN a 0).child c = none := by
  have hroot_child : (getN a 0).child c = none := by
    rw [sameStrip_child hs 0]
    cases hrc : (getN (buildTrie d) 0).child c with
    | none => rfl
    | some j =>
      exfalso
      have hin := (child_some_nodeOf (Rep_build d) (Rep_build d).wf.nz hrc).2
      rw [(Rep_build d).wf.rootb] at hin
      have h1 : ([c] : List Nat) <:+ (getN (buildTrie d) i).b ++ [c] :=
        ⟨(getN (buildTrie d) i).b, rfl⟩
      have := lts_max d _ [c] h1 (by simpa using hin)
      rw [hδ] at this
      exact absurd (List.suffix_nil.mp this) (by simp)
  by_cases hcase : i ≠ 0 ∧ (getN a i).child c = none
  · rw [if_pos hcase]
    have hnin_ct : ¬ inTrie d (chaseTarget d c (getN (buildTrie d) i).b ++ [c]) := by
      intro hin
      rw [delta_eq_ct, if_pos hin] at hδ
      exact absurd hδ (by simp)
    have hct_nil : chaseTarget d c (getN (buildTrie d) i).b = [] := by
      by_contra hne
      exact hnin_ct (ct_inTrie d c _ hne)
    have hfc : (getN a i).fails c = 0 := by
      rw [sameStrip_fails hs i, build_fails c hi, hct_nil, nodeOf_nil]
    rw [hfc]
    exact ⟨rfl, hroot_child⟩
  · rw [if_neg hcase]
    push_neg at hcase
    by_cases hi0 : i = 0
    · subst hi0
      exact ⟨rfl, hroot_child⟩
    · exfalso
      obtain ⟨j, hj⟩ := Option.ne_none_iff_exists'.mp (hcase hi0)
      rw [sameStrip_child hs i] at hj
      have hin := (child_some_nodeOf (Rep_build d) hi hj).2
      have := lts_max d _ _ (List.suffix_rfl) hin
      rw [hδ] at this
      exact absurd (List.suffix_nil.mp this) (by simp)

/-- When the transition target is nonempty, the scanner ends up taking a
child edge to precisely the node of the target. -/
lemma step_nav_some {d : List (List Nat)} {a : Arena}
    (hs : sameStrip a (buildTrie d)) {i c : Nat} (hi : i < (buildTrie d).length)
    (hδ : longestTrieSuffix d ((getN (buildTrie d) i).b ++ [c]) ≠ []) :
    (getN a (if i ≠ 0 ∧ (getN a i).child c = none then (getN a i).fails c else i)).child c =
      some (nodeOf (buildTrie d)
        (longestTrieSuffix d ((getN (buildTrie d) i).b ++ [c]))) := by
  have hct_in : inTrie d (chaseTarget d c (getN (buildTrie d) i).b ++ [c]) := by
    by_contra hnin
    rw [delta_eq_ct, if_neg hnin] at hδ
    exact hδ rfl
  have hδeq : longestTrieSuffix d ((getN (buildTrie d) i).b ++ [c]) =
      chaseTarget d c (getN (buildTrie d) i).b ++ [c] := by
    rw [delta_eq_ct, if_pos hct_in]
  cases hedge : (getN (buildTrie d) i).child c with
  | some j =>
    have hcase : ¬ (i ≠ 0 ∧ (getN a i).child c = none) := by
      rintro ⟨_, hnone⟩
      rw [sameStrip_child hs i, hedge] at hnone
      exact Option.noConfusion hnone
    rw [if_neg hcase, sameStrip_child hs i, hedge]
    obtain ⟨hjeq, hjin⟩ := child_some_nodeOf (Rep_build d) hi hedge
    have hct_bs : chaseTarget d c (getN (buildTrie d) i).b ++ [c] =
        (getN (buildTrie d) i).b ++ [c] := by
      cases hbc : (getN (buildTrie d) i).b with
      | nil => rfl
      | cons x rest =>
        rw [chaseTarget, if_pos (by rw [← hbc]; exact hjin)]
    rw [hδeq, hct_bs, ← hjeq]
  | none =>
    have hnin_bs : ¬ inTrie d ((getN (buildTrie d) i).b ++ [c]) :=
      child_none_not_inTrie (Rep_build d) hi hedge
    have hi0 : i ≠ 0 := by
      rintro rfl
      rw [(Rep_build d).wf.rootb] at hδ hnin_bs
      simp only [List.nil_append] at hδ hnin_bs
      rw [show ([c] : List Nat) = c :: [] from rfl, longestTrieSuffix,
        if_neg hnin_bs, longestTrieSuffix] at hδ
      exact hδ rfl
    have hcase : (i ≠ 0 ∧ (getN a i).child c = none) := by
      refine ⟨hi0, ?_⟩
      rw [sameStrip_child hs i, hedge]
    rw [if_pos hcase, sameStrip_fails hs i, build_fails c hi,
      sameStrip_child hs (nodeOf (buildTrie d)
        (chaseTarget d c (getN (buildTrie d) i).b))]
    have hctin : inTrie d (chaseTarget d c (getN (buildTrie d) i).b) :=
      inTrie_of_pre (List.prefix_append _ [c]) hct_in
    obtain ⟨hmlt, hmb⟩ := nodeOf_spec (Rep_build d) hctin
    have hchild := child_exists_of_inTrie (Rep_build d) hmlt
      (by rw [hmb]; exact hct_in)
    rw [hmb] at hchild
    rw [hchild, hδeq]

/-! ### The reporting walk -/

lemma counter_markN_iff {a : Arena} {s : Nat} (mc x : Nat) (hs : s < a.length) :
    ((getN (markN a s mc) x).counter = mc ↔ (x = s ∨ (getN a x).counter = mc)) := by
  by_cases hx : x = s
  · subst hx
    rw [markN, getN_set_self a x _ hs]
    simp
  · rw [markN, getN_set_ne a s _ x (fun h => hx h.symm)]
    simp [hx]

lemma nodeOf_eq_zero_iff {d : List (List Nat)} {a : Arena} (hr : Rep d a)
    {bs : List Nat} (h : inTrie d bs) : nodeOf a bs = 0 ↔ bs = [] := by
  constructor
  · intro h0
    have := (nodeOf_spec hr h).2
    rw [h0, hr.wf.rootb] at this
    exact this.symm
  · rintro rfl
    exact nodeOf_nil a

/-- Dictionary indices are unique across output nodes (each is the last
occurrence of its node's distinct path). -/
lemma out_index_inj {d : List (List Nat)} {x y : Nat}
    (hx : x < (buildTrie d).length) (hy : y < (buildTrie d).length)
    (hox : (getN (buildTrie d) x).output = true)
    (hoy : (getN (buildTrie d) y).output = true)
    (hidx : (getN (buildTrie d) x).index = (getN (buildTrie d) y).index) :
    x = y := by
  have h1 := (Rep_build d).idx_spec x hx hox
  have h2 := (Rep_build d).idx_spec y hy hoy
  have hb : (getN (buildTrie d) x).b = (getN (buildTrie d) y).b := by
    have e1 := h1.1
    have e2 := h2.1
    rw [hidx] at e1
    rw [e2] at e1
    injection e1 with h
    exact h.symm
  exact (Rep_build d).wf.inj x y hx hy hb

lemma strict_suffix_tail {t u : List Nat} (ht : t ≠ []) (hu : u <:+ t)
    (hne : u ≠ t) : u <:+ t.tail := by
  cases t with
  | nil => exact absurd rfl ht
  | cons x rest =>
    rcases List.suffix_cons_iff.mp hu with rfl | h
    · exact absurd rfl hne
    · exact h

/-- What the suffix-chain walk does, starting at an output-or-not node
`f` with path `t`: it stamps exactly the strict output suffixes of `t`
that were not already stamped, appends their indices, keeps the hits
characterisation and duplicate-freeness, and stays structure-equal —
provided every already-stamped strict suffix of `t` has its own strict
output suffixes stamped (the short-circuit soundness condition). -/
lemma chainWalk_spec {d : List (List Nat)} {mc : Nat} :
    ∀ (fuel : Nat) (t : List Nat) (a : Arena) (f : Nat) (hits : List Nat),
      sameStrip a (buildTrie d) →
      f < (buildTrie d).length → 0 < f →
      (getN (buildTrie d) f).b = t →
      t.length ≤ fuel →
      (∀ x, 0 < x → x < (buildTrie d).length →
        (getN (buildTrie d) x).output = true →
        (getN (buildTrie d) x).b ≠ t → (getN (buildTrie d) x).b <:+ t →
        (getN a x).counter = mc →
        ∀ y, 0 < y → y < (buildTrie d).length →
          (getN (buildTrie d) y).output = true →
          (getN (buildTrie d) y).b ≠ (getN (buildTrie d) x).b →
          (getN (buildTrie d) y).b <:+ (getN (buildTrie d) x).b →
          (getN a y).counter = mc) →
      (∀ z, z ∈ hits ↔ ∃ x, 0 < x ∧ x < (buildTrie d).length ∧
        (getN a x).counter = mc ∧ (getN (buildTrie d) x).output = true ∧
        (getN (buildTrie d) x).index = z) →
      hits.Nodup →
      sameStrip (chainWalk mc fuel a f hits).1 (buildTrie d) ∧
      (∀ x, 0 < x → x < (buildTrie d).length →
        ((getN (chainWalk mc fuel a f hits).1 x).counter = mc ↔
          ((getN a x).counter = mc ∨
            ((getN (buildTrie d) x).output = true ∧
              (getN (buildTrie d) x).b ≠ t ∧ (getN (buildTrie d) x).b <:+ t)))) ∧
      (∀ z, z ∈ (chainWalk mc fuel a f hits).2 ↔ ∃ x, 0 < x ∧
        x < (buildTrie d).length ∧
        (getN (chainWalk mc fuel a f hits).1 x).counter = mc ∧
        (getN (buildTrie d) x).output = true ∧
        (getN (buildTrie d) x).index = z) ∧
      (chainWalk mc fuel a f hits).2.Nodup := by
  intro fuel
  induction fuel with
  | zero =>
    intro t a f hits hs hf hf0 hfb hfuel hcl hhits hnodup
    exfalso
    have : t = [] := List.eq_nil_of_length_eq_zero (by omega)
    exact (Rep_build d).wf.b_ne_nil hf0 hf (this ▸ hfb)
  | succ fl ih =>
    intro t a f hits hs hf hf0 hfb hfuel hcl hhits hnodup
    have htne : t ≠ [] := fun he =>
      (Rep_build d).wf.b_ne_nil hf0 hf (he ▸ hfb)
    have hsuf_eq : (getN a f).suffix = (getN (buildTrie d) f).suffix :=
      sameStrip_suffix hs f
    have hsufA : (getN (buildTrie d) f).suffix =
        nodeOf (buildTrie d) (longestDictSuffix d t.tail) := by
      rw [build_suffix hf0 hf, hfb]
    -- decomposition of strict output suffixes of t
    have hdecomp : ∀ x, 0 < x → x < (buildTrie d).length →
        (getN (buildTrie d) x).output = true →
        (getN (buildTrie d) x).b ≠ t → (getN (buildTrie d) x).b <:+ t →
        (getN (buildTrie d) x).b <:+ longestDictSuffix d t.tail := by
      intro x hx0 hx hox hxne hxsuf
      refine lds_max d t.tail _ ?_ (strict_suffix_tail htne hxsuf hxne) ?_
      · exact (Rep_build d).wf.b_ne_nil hx0 hx
      · exact ((Rep_build d).out_spec x hx).mp hox
    rw [chainWalk, hsuf_eq, hsufA]
    by_cases hlds : longestDictSuffix d t.tail = []
    · -- no strict output suffix: the chain stops at once
      rw [hlds, nodeOf_nil, if_pos rfl]
      refine ⟨hs, ?_, hhits, hnodup⟩
      intro x hx0 hx
      constructor
      · intro h
        exact Or.inl h
      · rintro (h | ⟨hox, hxne, hxsuf⟩)
        · exact h
        · exfalso
          have := hdecomp x hx0 hx hox hxne hxsuf
          rw [hlds] at this
          exact (Rep_build d).wf.b_ne_nil hx0 hx (List.suffix_nil.mp this)
    · -- the chain steps to the node s of the longest strict output suffix
      have hldsmem : longestDictSuffix d t.tail ∈ d := lds_mem d t.tail hlds
      have hldsin : inTrie d (longestDictSuffix d t.tail) := inTrie_of_mem hldsmem
      obtain ⟨hslt, hsb⟩ := nodeOf_spec (Rep_build d) hldsin
      set s := nodeOf (buildTrie d) (longestDictSuffix d t.tail) with hsdef
      have hs0 : s ≠ 0 := by
        intro h0
        rw [h0, (Rep_build d).wf.rootb] at hsb
        exact hlds hsb.symm
      have hspos : 0 < s := Nat.pos_of_ne_zero hs0
      have hsout : (getN (buildTrie d) s).output = true :=
        ((Rep_build d).out_spec s hslt).mpr (by rw [hsb]; exact hldsmem)
      have hsne_t : (getN (buildTrie d) s).b ≠ t := by
        rw [hsb]
        intro he
        have h1 := suffix_length_le (lds_suffix d t.tail)
        have h2 : t.tail.length + 1 = t.length := by
          cases t with
          | nil => exact absurd rfl htne
          | cons x rest => simp
        rw [he] at h1
        omega
      have hs_suf_t : (getN (buildTrie d) s).b <:+ t := by
        rw [hsb]
        exact (lds_suffix d t.tail).trans (tail_suffix t)
      have hslen : (getN (buildTrie d) s).b.length < t.length := by
        have h1 := suffix_length_le (hsb ▸ lds_suffix d t.tail)
        have h2 : t.tail.length + 1 = t.length := by
          cases t with
          | nil => exact absurd rfl htne
          | cons x rest => simp
        rw [hsb] at h1 ⊢
        omega
      rw [if_neg hs0]
      have hcnt_eq : (getN a s).counter = (getN a s).counter := rfl
      by_cases hmarked : (getN a s).counter = mc
      · -- already stamped: stop; everything below is stamped too
        rw [if_neg (not_not_intro hmarked)]
        refine ⟨hs, ?_, hhits, hnodup⟩
        intro x hx0 hx
        constructor
        · intro h
          exact Or.inl h
        · rintro (h | ⟨hox, hxne, hxsuf⟩)
          · exact h
          · have hxlds := hdecomp x hx0 hx hox hxne hxsuf
            by_cases hxs : (getN (buildTrie d) x).b = (getN (buildTrie d) s).b
            · rw [(Rep_build d).wf.inj x s hx hslt hxs]
              exact hmarked
            · exact hcl s hspos hslt hsout hsne_t hs_suf_t hmarked x hx0 hx hox
                (by rw [hsb]; rw [hsb] at hxs; exact hxs)
                (by rw [hsb]; exact hxlds)
      · -- fresh: stamp s, append its index, recurse down the chain
        rw [if_pos hmarked]
        have hidx_eq : (getN a s).index = (getN (buildTrie d) s).index :=
          sameStrip_index hs s
        have hs_lt_a : s < a.length := by
          rw [sameStrip_length hs]
          exact hslt
        have hstrip2 : sameStrip (markN a s mc) (buildTrie d) := by
          unfold sameStrip
          rw [map_strip_markN]
          exact hs
        have hrec := ih (getN (buildTrie d) s).b (markN a s mc) s
          (hits ++ [(getN a s).index]) hstrip2 hslt hspos rfl (by omega)
          ?_ ?_ ?_
        · obtain ⟨rc1, rc2, rc3, rc4⟩ := hrec
          refine ⟨rc1, ?_, rc3, rc4⟩
          intro x hx0 hx
          rw [rc2 x hx0 hx, counter_markN_iff mc x hs_lt_a]
          constructor
          · rintro ((rfl | h) | ⟨hox, hxne, hxsuf⟩)
            · exact Or.inr ⟨hsout, hsne_t, hs_suf_t⟩
            · exact Or.inl h
            · refine Or.inr ⟨hox, ?_, hxsuf.trans hs_suf_t⟩
              intro he
              have := suffix_length_le hxsuf
              rw [he] at this
              omega
          · rintro (h | ⟨hox, hxne, hxsuf⟩)
            · exact Or.inl (Or.inr h)
            · by_cases hxs : (getN (buildTrie d) x).b = (getN (buildTrie d) s).b
              · exact Or.inl (Or.inl ((Rep_build d).wf.inj x s hx hslt hxs))
              · exact Or.inr ⟨hox, hxs,
                  by rw [hsb]; exact hdecomp x hx0 hx hox hxne hxsuf⟩
        · -- closure condition for the recursive call
          intro x hx0 hx hox hxne hxsuf hxcnt y hy0 hy hoy hyne hysuf
          have hxne_s : x ≠ s := fun he => hxne (he ▸ rfl)
          have hxcnt_a : (getN a x).counter = mc := by
            rw [counter_markN_iff mc x hs_lt_a] at hxcnt
            rcases hxcnt with rfl | h
            · exact absurd rfl hxne_s
            · exact h
          have hycnt := hcl x hx0 hx hox
            (by intro he
                have h1 := suffix_length_le hxsuf
                rw [he] at h1
                omega)
            (hxsuf.trans hs_suf_t) hxcnt_a y hy0 hy hoy hyne hysuf
          rw [counter_markN_iff mc y hs_lt_a]
          exact Or.inr hycnt
        · -- hits characterisation for the recursive call
          intro z
          rw [List.mem_append]
          constructor
          · rintro (hz | hz)
            · obtain ⟨x, hx0, hx, hxc, hxo, hxi⟩ := (hhits z).mp hz
              refine ⟨x, hx0, hx, ?_, hxo, hxi⟩
              rw [counter_markN_iff mc x hs_lt_a]
              exact Or.inr hxc
            · have hz2 : z = (getN a s).index := by simpa using hz
              refine ⟨s, hspos, hslt, ?_, hsout, by rw [← hidx_eq, hz2]⟩
              rw [counter_markN_iff mc s hs_lt_a]
              exact Or.inl rfl
          · rintro ⟨x, hx0, hx, hxc, hxo, hxi⟩
            rw [counter_markN_iff mc x hs_lt_a] at hxc
            rcases hxc with rfl | hxc
            · right
              rw [← hxi, hidx_eq]
              simp
            · left
              exact (hhits z).mpr ⟨x, hx0, hx, hxc, hxo, hxi⟩
        · -- no duplicate: s was not stamped, so its index is fresh
          rw [List.nodup_append]
          refine ⟨hnodup, List.nodup_singleton _, ?_⟩
          intro z hz hz2
          have hz3 : z = (getN a s).index := by simpa using hz2
          obtain ⟨x, hx0, hx, hxc, hxo, hxi⟩ := (hhits z).mp hz
          have hxs : x = s := by
            apply out_index_inj hx hslt hxo hsout
            rw [hxi, hz3, hidx_eq]
          rw [hxs] at hxc
          exact hmarked hxc

/-! ### The scan invariant and the main correctness theorem -/

lemma mem_of_getElem_opt {d : List (List Nat)} {x : Nat} {p : List Nat}
    (h : d[x]? = some p) : p ∈ d := by
  have hlt : x < d.length := by
    by_contra hge
    rw [List.getElem?_eq_none (Nat.le_of_not_lt hge)] at h
    exact Option.noConfusion h
  rw [List.getElem?_eq_getElem hlt] at h
  injection h with h
  rw [← h]
  exact List.getElem_mem hlt

/-- One byte of the scan preserves the whole invariant: structure
intact, current node tracking the longest trie suffix of the consumed
input, stamped nodes exactly the output nodes whose path occurred, hits
enumerating the stamped nodes' indices without duplicates. -/
lemma scanInv_step {d : List (List Nat)} {mc : Nat} {u : List Nat}
    {a : Arena} {n : Nat} {hits : List Nat} (c : Nat)
    (hstrip : sameStrip a (buildTrie d))
    (hnode : n = nodeOf (buildTrie d) (longestTrieSuffix d u))
    (hmarks : ∀ x, 0 < x → x < (buildTrie d).length →
      ((getN a x).counter = mc ↔
        ((getN (buildTrie d) x).output = true ∧
          (getN (buildTrie d) x).b <:+: u)))
    (hhits : ∀ z, z ∈ hits ↔ ∃ x, 0 < x ∧ x < (buildTrie d).length ∧
      (getN a x).counter = mc ∧ (getN (buildTrie d) x).output = true ∧
      (getN (buildTrie d) x).index = z)
    (hnodup : hits.Nodup) :
    sameStrip (matchStep mc (a, n, hits) c).1 (buildTrie d) ∧
      (matchStep mc (a, n, hits) c).2.1 =
        nodeOf (buildTrie d) (longestTrieSuffix d (u ++ [c])) ∧
      (∀ x, 0 < x → x < (buildTrie d).length →
        ((getN (matchStep mc (a, n, hits) c).1 x).counter = mc ↔
          ((getN (buildTrie d) x).output = true ∧
            (getN (buildTrie d) x).b <:+: (u ++ [c])))) ∧
      (∀ z, z ∈ (matchStep mc (a, n, hits) c).2.2 ↔ ∃ x, 0 < x ∧
        x < (buildTrie d).length ∧
        (getN (matchStep mc (a, n, hits) c).1 x).counter = mc ∧
        (getN (buildTrie d) x).output = true ∧
        (getN (buildTrie d) x).index = z) ∧
      (matchStep mc (a, n, hits) c).2.2.Nodup := by
  have hnlt : n < (buildTrie d).length := by
    rw [hnode]
    exact (nodeOf_spec (Rep_build d) (lts_inTrie d u)).1
  have hnb : (getN (buildTrie d) n).b = longestTrieSuffix d u := by
    rw [hnode]
    exact (nodeOf_spec (Rep_build d) (lts_inTrie d u)).2
  have hexch : longestTrieSuffix d ((getN (buildTrie d) n).b ++ [c]) =
      longestTrieSuffix d (u ++ [c]) := by
    rw [hnb]
    exact lts_exchange d u c
  have hinfix_new : ∀ x, 0 < x → x < (buildTrie d).length →
      ((getN (buildTrie d) x).b <:+: (u ++ [c]) ↔
        ((getN (buildTrie d) x).b <:+: u ∨
          (getN (buildTrie d) x).b <:+ longestTrieSuffix d (u ++ [c]))) := by
    intro x hx0 hx
    rw [infix_snoc_iff]
    constructor
    · rintro (h | h)
      · exact Or.inl h
      · exact Or.inr (lts_max d (u ++ [c]) _ h ((Rep_build d).paths_mem x hx))
    · rintro (h | h)
      · exact Or.inl h
      · exact Or.inr (h.trans (lts_suffix d (u ++ [c])))
  by_cases hwnil : longestTrieSuffix d (u ++ [c]) = []
  · -- no trie path ends here: the scanner sits at the root, reports nothing
    have hδ : longestTrieSuffix d ((getN (buildTrie d) n).b ++ [c]) = [] := by
      rw [hexch]
      exact hwnil
    obtain ⟨hn1, hroot⟩ := step_nav_none hstrip hnlt hδ
    have hms : matchStep mc (a, n, hits) c = (a, 0, hits) := by
      simp only [matchStep]
      rw [hn1, hroot]
    rw [hms]
    refine ⟨hstrip, ?_, ?_, hhits, hnodup⟩
    · rw [hwnil, nodeOf_nil]
    · intro x hx0 hx
      rw [show (getN (a, (0 : Nat), hits).1 x).counter = (getN a x).counter from rfl,
        hmarks x hx0 hx, hinfix_new x hx0 hx]
      constructor
      · rintro ⟨ho, hi⟩
        exact ⟨ho, Or.inl hi⟩
      · rintro ⟨ho, hi | hi⟩
        · exact ⟨ho, hi⟩
        · exfalso
          rw [hwnil] at hi
          exact (Rep_build d).wf.b_ne_nil hx0 hx (List.suffix_nil.mp hi)
  · -- a child edge is taken to the node of the new state
    have hδ : longestTrieSuffix d ((getN (buildTrie d) n).b ++ [c]) ≠ [] := by
      rw [hexch]
      exact hwnil
    have hedge := step_nav_some hstrip hnlt hδ
    rw [hexch] at hedge
    have hwin : inTrie d (longestTrieSuffix d (u ++ [c])) :=
      lts_inTrie d (u ++ [c])
    obtain ⟨hflt, hfb⟩ := nodeOf_spec (Rep_build d) hwin
    set f := nodeOf (buildTrie d) (longestTrieSuffix d (u ++ [c])) with hf
    have hf0 : 0 < f := by
      rcases Nat.eq_zero_or_pos f with h0 | h
      · exact absurd ((nodeOf_eq_zero_iff (Rep_build d) hwin).mp h0) hwnil
      · exact h
    have hwlen : (longestTrieSuffix d (u ++ [c])).length < (buildTrie d).length := by
      rw [← hfb]
      exact path_len_lt (Rep_build d) hflt
    have hfa : f < a.length := by
      rw [sameStrip_length hstrip]
      exact hflt
    have hout_f : (getN a f).output = (getN (buildTrie d) f).output :=
      sameStrip_output hstrip f
    have hidx_f : (getN a f).index = (getN (buildTrie d) f).index :=
      sameStrip_index hstrip f
    -- shared: closure of the already-stamped set under output suffixes
    have hclosure : ∀ x, 0 < x → x < (buildTrie d).length →
        (getN (buildTrie d) x).output = true →
        (getN a x).counter = mc →
        ∀ y, 0 < y → y < (buildTrie d).length →
          (getN (buildTrie d) y).output = true →
          (getN (buildTrie d) y).b <:+ (getN (buildTrie d) x).b →
          (getN a y).counter = mc := by
      intro x hx0 hx hox hxc y hy0 hy hoy hysuf
      have hxu := (hmarks x hx0 hx).mp hxc
      exact (hmarks y hy0 hy).mpr ⟨hoy, within_of_suffix_within hysuf hxu.2⟩
    by_cases hrep : (getN a f).output = true ∧ (getN a f).counter ≠ mc
    · -- the new node is a fresh output node: stamp it, then walk the chain
      have hms : matchStep mc (a, n, hits) c =
          ((chainWalk mc (markN a f mc).length (markN a f mc) f
              (hits ++ [(getN a f).index])).1, f,
            (chainWalk mc (markN a f mc).length (markN a f mc) f
              (hits ++ [(getN a f).index])).2) := by
        simp only [matchStep, hedge]
        rw [if_pos hrep]
      rw [hms]
      have hstrip2 : sameStrip (markN a f mc) (buildTrie d) := by
        unfold sameStrip
        rw [map_strip_markN]
        exact hstrip
      have hrc := @chainWalk_spec d mc (markN a f mc).length
        (longestTrieSuffix d (u ++ [c])) (markN a f mc) f
        (hits ++ [(getN a f).index]) hstrip2 hflt hf0 hfb
        (by rw [markN_length, sameStrip_length hstrip]; omega) ?_ ?_ ?_
      · obtain ⟨rc1, rc2, rc3, rc4⟩ := hrc
        refine ⟨rc1, rfl, ?_, rc3, rc4⟩
        intro x hx0 hx
        rw [rc2 x hx0 hx, counter_markN_iff mc x hfa, hinfix_new x hx0 hx]
        constructor
        · rintro ((rfl | h) | ⟨ho, hne, hsuf⟩)
          · rw [← hout_f]
            exact ⟨hrep.1, Or.inr (hfb ▸ List.suffix_rfl)⟩
          · obtain ⟨ho, hi⟩ := (hmarks x hx0 hx).mp h
            exact ⟨ho, Or.inl hi⟩
          · exact ⟨ho, Or.inr hsuf⟩
        · rintro ⟨ho, hi | hi⟩
          · exact Or.inl (Or.inr ((hmarks x hx0 hx).mpr ⟨ho, hi⟩))
          · by_cases hxw : (getN (buildTrie d) x).b = longestTrieSuffix d (u ++ [c])
            · exact Or.inl (Or.inl
                ((Rep_build d).wf.inj x f hx hflt (by rw [hxw, hfb])))
            · exact Or.inr ⟨ho, hxw, hi⟩
      · -- closure for the walk, over the stamped-plus-f arena
        intro x hx0 hx hox hxne hxsuf hxc y hy0 hy hoy hyne hysuf
        have hxf : x ≠ f := fun he => hxne (by rw [he, hfb])
        have hxc_a : (getN a x).counter = mc := by
          rcases (counter_markN_iff mc x hfa).mp hxc with rfl | h
          · exact absurd rfl hxf
          · exact h
        rw [counter_markN_iff mc y hfa]
        exact Or.inr (hclosure x hx0 hx hox hxc_a y hy0 hy hoy hysuf)
      · -- hits of the pre-walk state
        intro z
        rw [List.mem_append]
        constructor
        · rintro (hz | hz)
          · obtain ⟨x, hx0, hx, hxc, hxo, hxi⟩ := (hhits z).mp hz
            refine ⟨x, hx0, hx, ?_, hxo, hxi⟩
            rw [counter_markN_iff mc x hfa]
            exact Or.inr hxc
          · have hz2 : z = (getN a f).index := by simpa using hz
            refine ⟨f, hf0, hflt, ?_, by rw [← hout_f]; exact hrep.1, ?_⟩
            · rw [counter_markN_iff mc f hfa]
              exact Or.inl rfl
            · rw [← hidx_f, hz2]
        · rintro ⟨x, hx0, hx, hxc, hxo, hxi⟩
          rcases (counter_markN_iff mc x hfa).mp hxc with rfl | hxc2
          · right
            rw [← hxi, hidx_f]
            simp
          · left
            exact (hhits z).mpr ⟨x, hx0, hx, hxc2, hxo, hxi⟩
      · -- the appended index is fresh
        rw [List.nodup_append]
        refine ⟨hnodup, List.nodup_singleton _, ?_⟩
        intro z hz hz2
        have hz3 : z = (getN a f).index := by simpa using hz2
        obtain ⟨x, hx0, hx, hxc, hxo, hxi⟩ := (hhits z).mp hz
        have hxf : x = f := by
          apply out_index_inj hx hflt hxo (by rw [← hout_f]; exact hrep.1)
          rw [hxi, hz3, hidx_f]
        rw [hxf] at hxc
        exact hrep.2 hxc
    · -- the new node needs no stamp (not an output node, or already stamped)
      have hms : matchStep mc (a, n, hits) c =
          ((chainWalk mc a.length a f hits).1, f,
            (chainWalk mc a.length a f hits).2) := by
        simp only [matchStep, hedge]
        rw [if_neg hrep]
      rw [hms]
      have hrc := @chainWalk_spec d mc a.length (longestTrieSuffix d (u ++ [c])) a f
        hits hstrip hflt hf0 hfb (by rw [sameStrip_length hstrip]; omega) ?_ hhits hnodup
      · obtain ⟨rc1, rc2, rc3, rc4⟩ := hrc
        refine ⟨rc1, rfl, ?_, rc3, rc4⟩
        intro x hx0 hx
        rw [rc2 x hx0 hx, hinfix_new x hx0 hx]
        constructor
        · rintro (h | ⟨ho, hne, hsuf⟩)
          · obtain ⟨ho, hi⟩ := (hmarks x hx0 hx).mp h
            exact ⟨ho, Or.inl hi⟩
          · exact ⟨ho, Or.inr hsuf⟩
        · rintro ⟨ho, hi | hi⟩
          · exact Or.inl ((hmarks x hx0 hx).mpr ⟨ho, hi⟩)
          · by_cases hxw : (getN (buildTrie d) x).b = longestTrieSuffix d (u ++ [c])
            · -- x is the new node itself: it must already be stamped
              have hxf : x = f :=
                (Rep_build d).wf.inj x f hx hflt (by rw [hxw, hfb])
              subst hxf
              left
              by_contra hnc
              exact hrep ⟨by rw [hout_f]; exact ho, hnc⟩
            · exact Or.inr ⟨ho, hxw, hi⟩
      · -- closure for the walk
        intro x hx0 hx hox hxne hxsuf hxc y hy0 hy hoy hyne hysuf
        exact hclosure x hx0 hx hox hxc y hy0 hy hoy hysuf

/-- The whole scan, by induction over the input. -/
lemma scan_foldl (d : List (List Nat)) {mc : Nat}
    (hfresh : ∀ x, x < (buildTrie d).length →
      (getN (buildTrie d) x).counter ≠ mc) :
    ∀ u : List Nat,
      sameStrip (u.foldl (matchStep mc) ((buildTrie d), 0, [])).1 (buildTrie d) ∧
      (u.foldl (matchStep mc) ((buildTrie d), 0, [])).2.1 =
        nodeOf (buildTrie d) (longestTrieSuffix d u) ∧
      (∀ x, 0 < x → x < (buildTrie d).length →
        ((getN (u.foldl (matchStep mc) ((buildTrie d), 0, [])).1 x).counter = mc ↔
          ((getN (buildTrie d) x).output = true ∧
            (getN (buildTrie d) x).b <:+: u))) ∧
      (∀ z, z ∈ (u.foldl (matchStep mc) ((buildTrie d), 0, [])).2.2 ↔
        ∃ x, 0 < x ∧ x < (buildTrie d).length ∧
          (getN (u.foldl (matchStep mc) ((buildTrie d), 0, [])).1 x).counter = mc ∧
          (getN (buildTrie d) x).output = true ∧
          (getN (buildTrie d) x).index = z) ∧
      (u.foldl (matchStep mc) ((buildTrie d), 0, [])).2.2.Nodup := by
  intro u
  induction u using List.reverseRecOn with
  | nil =>
    refine ⟨rfl, ?_, ?_, ?_, List.nodup_nil⟩
    · rw [show longestTrieSuffix d [] = [] from rfl, nodeOf_nil]
      rfl
    · intro x hx0 hx
      constructor
      · intro h
        exact absurd h (hfresh x hx)
      · rintro ⟨_, hi⟩
        exact absurd (List.infix_nil.mp hi) ((Rep_build d).wf.b_ne_nil hx0 hx)
    · intro z
      constructor
      · intro h
        exact absurd h (List.not_mem_nil z)
      · rintro ⟨x, _, hx, hxc, _, _⟩
        exact absurd hxc (hfresh x hx)
  | append_singleton u c ih =>
    obtain ⟨h1, h2, h3, h4, h5⟩ := ih
    have hsplit : ((u ++ [c]).foldl (matchStep mc) ((buildTrie d), 0, [])) =
        matchStep mc (u.foldl (matchStep mc) ((buildTrie d), 0, [])) c := by
      rw [List.foldl_append]
      rfl
    have hst : u.foldl (matchStep mc) ((buildTrie d), 0, []) =
        ((u.foldl (matchStep mc) ((buildTrie d), 0, [])).1,
          (u.foldl (matchStep mc) ((buildTrie d), 0, [])).2.1,
          (u.foldl (matchStep mc) ((buildTrie d), 0, [])).2.2) := rfl
    rw [hsplit, hst]
    exact scanInv_step c h1 h2 h3 h4 h5

/-- The full characterisation of a first `Match` call: hits are exactly
the last-occurrence indices of the nonempty patterns that occur as
contiguous substrings of the input, each once. -/
lemma MatchRes_char (d : List (List Nat)) (S : List Nat) :
    (MatchRes d S).Nodup ∧
      ∀ x, x ∈ MatchRes d S ↔ ∃ p, d[x]? = some p ∧ p ≠ [] ∧ p <:+: S ∧
        ∀ j, x < j → d[j]? ≠ some p := by
  have hfresh : ∀ x, x < (buildTrie d).length →
      (getN (buildTrie d) x).counter ≠ (1 : Nat) := by
    intro x _
    rw [buildTrie_counter_zero d x]
    omega
  obtain ⟨h1, h2, h3, h4, h5⟩ := scan_foldl d hfresh S
  have hres : MatchRes d S = (S.foldl (matchStep 1) ((buildTrie d), 0, [])).2.2 := by
    rw [MatchRes, Match_hits]
    have hmc : ((NewMatcher d).counter + 1) % W = 1 := by
      show (0 + 1) % W = 1
      rw [Nat.zero_add]
      exact Nat.mod_eq_of_lt (by norm_num [W])
    rw [hmc]
    rfl
  refine ⟨by rw [hres]; exact h5, ?_⟩
  intro x
  rw [hres, h4 x]
  constructor
  · rintro ⟨i, hi0, hilt, hic, hio, hii⟩
    have hmk := (h3 i hi0 hilt).mp hic
    have hlast := (Rep_build d).idx_spec i hilt hio
    rw [hii] at hlast
    exact ⟨(getN (buildTrie d) i).b, hlast.1,
      (Rep_build d).wf.b_ne_nil hi0 hilt, hmk.2, hlast.2⟩
  · rintro ⟨p, hp, hpne, hpinf, hplast⟩
    have hpmem : p ∈ d := mem_of_getElem_opt hp
    obtain ⟨i, hilt, hib⟩ := (Rep_build d).paths_complete p (inTrie_of_mem hpmem)
    have hi0 : 0 < i := by
      rcases Nat.eq_zero_or_pos i with rfl | h
      · rw [(Rep_build d).wf.rootb] at hib
        exact absurd hib.symm hpne
      · exact h
    have hio : (getN (buildTrie d) i).output = true :=
      ((Rep_build d).out_spec i hilt).mpr (hib ▸ hpmem)
    have hiidx : (getN (buildTrie d) i).index = x := by
      have hlast := (Rep_build d).idx_spec i hilt hio
      rw [hib] at hlast
      exact IsLastOcc_unique hlast ⟨hp, hplast⟩
    refine ⟨i, hi0, hilt, ?_, hio, hiidx⟩
    exact (h3 i hi0 hilt).mpr ⟨hio, by rw [hib]; exact hpinf⟩

lemma Match_nil_matcher (m : Matcher) :
    (Match m []).1 = ⟨(m.counter + 1) % W, m.nodes⟩ := rfl

/-- A `Match` call on the empty input only increments the wrapped
counter; `k` such calls add `k` modulo `2 ^ 64`. -/
lemma applyCalls_replicate_nil :
    ∀ (k : Nat) (m : Matcher), m.counter < W →
      applyCalls m (List.replicate k []) = ⟨(m.counter + k) % W, m.nodes⟩ := by
  intro k
  induction k with
  | zero =>
    intro m hm
    simp only [List.replicate, applyCalls]
    rw [Nat.add_zero, Nat.mod_eq_of_lt hm]
  | succ k ih =>
    intro m hm
    rw [List.replicate_succ, applyCalls, Match_nil_matcher]
    rw [ih _ (Nat.mod_lt _ (by norm_num [W]))]
    simp only [Nat.mod_add_mod]
    have h : m.counter + 1 + k = m.counter + (k + 1) := by omega
    rw [h]

/-! ### Claim theorems settled by closed evaluation -/

/-- C1, counterexample.  The claim as stated fails on duplicated
patterns: with `D = ["a", "a"]` and `S = "a"`, the pattern at index 0
occurs as a contiguous substring of `S`, yet `Match` reports only index
1 (the trie insertion overwrote the shared terminal node's index). -/
theorem C1_counterexample :
    [97] <:+: [97] ∧ MatchRes [[97], [97]] [97] = [1] ∧
      0 ∉ MatchRes [[97], [97]] [97] := by decide

/-- C2, evaluation at the failing input.  Build the final (marks-map)
version's automaton for `D = ["aac", "b"]` and feed it "aab".  After
"aa" the scanner sits at node "aa" (id 3), which has no edge for 'b'
(98); its fail link is node "a" (id 2), which also has no edge for 'b';
the root does have one.  The claim requires following fail links until
the root is reached, but `matchStep4` stops after a single hop, at the
non-root node 2, reports nothing, and the whole scan misses pattern
"b" — which the fails-table versions (here V1) find. -/
theorem C2_single_fail_follow :
    (let t := V4.buildTrie4 [[97, 97, 99], [98]]
     V4.matchStep4 t (3, [], []) 98 = (2, [], []) ∧
       (V4.tget t 3).b = [97, 97] ∧ V4.getChild4 (V4.tget t 3) 98 = 0 ∧
       (V4.tget t 3).fail = 2 ∧ V4.getChild4 (V4.tget t 2) 98 = 0 ∧
       (V4.tget t 2).fail = 1 ∧ V4.getChild4 (V4.tget t 1) 98 ≠ 0) ∧
      V4.MatchRes4 [[97, 97, 99], [98]] [97, 97, 98] = [] ∧
      MatchRes [[97, 97, 99], [98]] [97, 97, 98] = [1] := by decide

/-- C3, evaluation at the failing input.  The three versions are not
behaviourally identical: on `D = ["aac", "b"]`, `S = "aab"` the
fixed-array version (V1) and the chunked-arena version (V2) both report
the occurrence of "b", while the int32-table marks-map version (V4)
reports nothing, because its `Match` follows the fail link at most once
per byte instead of iterating. -/
theorem C3_versions_diverge :
    MatchRes [[97, 97, 99], [98]] [97, 97, 98] = [1] ∧
      V2.MatchRes2 [[97, 97, 99], [98]] [97, 97, 98] = [1] ∧
      V4.MatchRes4 [[97, 97, 99], [98]] [97, 97, 98] = [] := by decide

/-- C4, counterexample.  A `Match` call does not leave every field
unchanged: it increments the `Matcher` counter and stamps the counter
field of each reported node. -/
theorem C4_counterexample :
    ((Match (NewMatcher [[97]]) [97]).1).counter ≠ (NewMatcher [[97]]).counter ∧
      (getN ((Match (NewMatcher [[97]]) [97]).1).nodes 1).counter ≠
        (getN (NewMatcher [[97]]).nodes 1).counter := by decide

/-- C4, amended.  A `Match` call on the fixed-array version leaves every
node field except the duplicate-suppression `counter` exactly as it was
(paths, output flags, indices, child tables, fail and suffix links and
the fails tables are all preserved), and the only `Matcher` field it
changes is the match counter, which is incremented (Go `int` arithmetic,
modulo `2 ^ 64`).  The marks-map version's `Match` (`V4.Match4`) takes
and returns no automaton state at all. -/
theorem C4_frame (m : Matcher) (s : List Nat) :
    ((Match m s).1).nodes.map stripCounter = m.nodes.map stripCounter ∧
      ((Match m s).1).counter = (m.counter + 1) % W :=
  ⟨foldl_matchStep_map_strip ((m.counter + 1) % W) s (m.nodes, 0, []), rfl⟩

/-- C5, counterexample.  The match counter is a machine integer and
wraps: on `D = ["a"]`, a first `Match("a")` reports index 0 and stamps
the node for "a" with counter value 1; after `2 ^ 64 - 1` intervening
`Match` calls on the empty input the matcher counter has wrapped back so
that the next call again runs with counter value 1, sees the stale stamp,
suppresses the report, and returns the empty set instead of `[0]`. -/
theorem C5_counterexample :
    (Match (applyCalls (Match (NewMatcher [[97]]) [97]).1
        (List.replicate (W - 1) [])) [97]).2 ≠
      (Match (NewMatcher [[97]]) [97]).2 := by
  rw [applyCalls_replicate_nil (W - 1) (Match (NewMatcher [[97]]) [97]).1
    (by decide)]
  decide

/-- C5, amended.  Idempotence of the result set holds as long as the
match counter has not wrapped: if two histories of calls on the same
freshly built matcher each comprise fewer than `2 ^ 64 - 1` calls, a
`Match (S)` call after either history returns the same hits.  (The claim
as stated, over an unbounded number of intervening calls, fails at the
wraparound; see the counterexample.) -/
theorem C5_amended (d : List (List Nat)) (S : List Nat) (L1 L2 : List (List Nat))
    (h1 : L1.length + 1 < W) (h2 : L2.length + 1 < W) :
    (Match (applyCalls (NewMatcher d) L1) S).2 =
      (Match (applyCalls (NewMatcher d) L2) S).2 := by
  have key : ∀ L : List (List Nat), L.length + 1 < W →
      sameStrip (applyCalls (NewMatcher d) L).nodes (NewMatcher d).nodes ∧
        ∀ i, (getN (applyCalls (NewMatcher d) L).nodes i).counter ≠
          ((applyCalls (NewMatcher d) L).counter + 1) % W := by
    intro L hL
    refine ⟨applyCalls_strip L (NewMatcher d), ?_⟩
    intro i
    have hc : (applyCalls (NewMatcher d) L).counter = L.length := by
      have h0 : (NewMatcher d).counter = 0 := rfl
      have := applyCalls_counter L (NewMatcher d) (by rw [h0]; omega)
      rwa [h0, Nat.zero_add] at this
    have hle := countersLe_applyCalls L (NewMatcher d) (countersLe_NewMatcher d)
      (by have h0 : (NewMatcher d).counter = 0 := rfl; rw [h0]; omega) i
    rw [hc] at hle ⊢
    rw [Nat.mod_eq_of_lt (by omega)]
    omega
  obtain ⟨hs1, hf1⟩ := key L1 h1
  obtain ⟨hs2, hf2⟩ := key L2 h2
  exact Match_bisim _ _ S (hs1.trans hs2.symm) hf1 hf2

/-- C5, witness for the amended theorem: the result of scanning "a" on
the automaton for `["a"]` is the same before and after two intervening
calls. -/
theorem C5_amended_witness :
    (Match (applyCalls (NewMatcher [[97]]) [[], [97]]) [97]).2 =
      (Match (applyCalls (NewMatcher [[97]]) []) [97]).2 :=
  C5_amended [[97]] [97] [[], [97]] [] (by norm_num [W]) (by norm_num [W])

/-- C9, counterexample.  A zero-length pattern is accepted by
construction, but its index never appears in a scan result: with
`D = [""]`, the empty pattern occurs in every input (here "a" and the
empty input), yet both scans report nothing. -/
theorem C9_counterexample :
    ([] : List Nat) <:+: [97] ∧ MatchRes [[]] [97] = [] ∧ MatchRes [[]] [] = [] := by
  decide

/-- C1, amended and proved.  For every dictionary `D` and input `S`,
`Match` reports, each exactly once, precisely the indices `x` whose
pattern `p = D[x]` is nonempty, occurs as a contiguous substring of
`S`, and does not recur later in the dictionary.  (The claim as stated
fails only on the two edge cases excluded here: duplicated patterns,
where the trie keeps just the last index, and empty patterns, which are
never reported; see the counterexample.) -/
theorem C1_amended_correct (d : List (List Nat)) (S : List Nat) :
    (MatchRes d S).Nodup ∧
      ∀ x, x ∈ MatchRes d S ↔ ∃ p, d[x]? = some p ∧ p ≠ [] ∧ p <:+: S ∧
        ∀ j, x < j → d[j]? ≠ some p :=
  MatchRes_char d S

/-- C9, amended and proved.  A zero-length pattern at a (last) index `i`
is accepted by construction — it marks the root node as an output node
carrying index `i` — but that index appears in no scan result: `Match`
only ever reports nodes reached by child edges or suffix-chain hops,
which are never the root. -/
theorem C9_amended (d : List (List Nat)) (i : Nat)
    (h : d[i]? = some ([] : List Nat))
    (hlast : ∀ j, i < j → d[j]? ≠ some ([] : List Nat)) :
    (getN (buildTrie d) 0).output = true ∧
      (getN (buildTrie d) 0).index = i ∧ ∀ S, i ∉ MatchRes d S := by
  have hmem : ([] : List Nat) ∈ d := mem_of_getElem_opt h
  have hnz : 0 < (buildTrie d).length := (Rep_build d).wf.nz
  have hrootb : (getN (buildTrie d) 0).b = [] := (Rep_build d).wf.rootb
  have hout : (getN (buildTrie d) 0).output = true :=
    ((Rep_build d).out_spec 0 hnz).mpr (by rw [hrootb]; exact hmem)
  refine ⟨hout, ?_, ?_⟩
  · have hlo := (Rep_build d).idx_spec 0 hnz hout
    rw [hrootb] at hlo
    exact IsLastOcc_unique hlo ⟨h, hlast⟩
  · intro S hin
    obtain ⟨p, hp, hpne, _, _⟩ := ((MatchRes_char d S).2 i).mp hin
    rw [h] at hp
    injection hp with hp
    exact hpne hp.symm

/-- C9, witness for the amended theorem at `D = [""]`, `S = "a"`. -/
theorem C9_amended_witness :
    ([[]] : List (List Nat))[0]? = some ([] : List Nat) ∧
      ((getN (buildTrie [[]]) 0).output = true ∧
        (getN (buildTrie [[]]) 0).index = 0 ∧ 0 ∉ MatchRes [[]] [97]) := by
  have hlast : ∀ j, 0 < j → ([[]] : List (List Nat))[j]? ≠ some ([] : List Nat) := by
    intro j hj hc
    rw [List.getElem?_eq_none (by simp; omega)] at hc
    exact Option.noConfusion hc
  have h := C9_amended [[]] 0 (by decide) hlast
  exact ⟨by decide, h.1, h.2.1, h.2.2 [97]⟩

/-- C10, confirmed.  When the same pattern occurs at two indices
`i < j` of the dictionary, the shared terminal node's index field is
overwritten by the later insertion, so `Match` never reports the
earlier index `i`, whatever the input. -/
theorem C10_last_duplicate_wins (d : List (List Nat)) (i j : Nat)
    (p : List Nat) (hij : i < j) (hi : d[i]? = some p) (hj : d[j]? = some p)
    (S : List Nat) : i ∉ MatchRes d S := by
  intro hin
  obtain ⟨q, hq, _, _, hql⟩ := ((MatchRes_char d S).2 i).mp hin
  rw [hi] at hq
  injection hq with hq
  rw [hq] at hj
  exact hql j hij hj

/-- C10, witness: with `D = ["a", "a"]` the earlier index 0 is absent
from the scan of "a". -/
theorem C10_last_duplicate_wins_witness :
    (0 : Nat) < 1 ∧ ([[97], [97]] : List (List Nat))[0]? = some [97] ∧
      ([[97], [97]] : List (List Nat))[1]? = some [97] ∧
      0 ∉ MatchRes [[97], [97]] [97] :=
  ⟨by decide, by decide, by decide,
    C10_last_duplicate_wins [[97], [97]] 0 1 [97] (by decide) (by decide)
      (by decide) [97]⟩

end Aho
